import Mathlib

/-!
Verification of the Babel-Markdown translation core against its specification.

Text is modelled as `List Char` (one JS string = one list of characters).
Each definition below is a direct translation of the correspondingly named
function of the source (`src/services/TranslationService.ts`,
`src/services/OpenAITranslationClient.ts`, `src/services/TranslationCache.ts`).
Whitespace is modelled by the ASCII whitespace characters that can actually
occur in the relevant strings.
-/

namespace BabelMarkdown

abbrev Str := List Char

/-- Characters treated as whitespace by `String.prototype.trim` (restricted to
the ASCII whitespace alphabet). -/
def isWS (c : Char) : Bool :=
  c = ' ' || c = '\t' || c = '\n' || c = '\r' || c = '\x0b' || c = '\x0c'

/-- Models `s.trimStart()`. -/
def trimLeft : Str → Str
  | [] => []
  | c :: rest => if isWS c then trimLeft rest else c :: rest

/-- Models `s.trimEnd()`. -/
def trimRight : Str → Str
  | [] => []
  | c :: rest =>
    match trimRight rest with
    | [] => if isWS c then [] else [c]
    | r => c :: r

/-- Models `s.trim()`. -/
def trim (s : Str) : Str := trimLeft (trimRight s)

/-- Models `s.split(/\r?\n/)`: a `\n` ends a line, a `\r` immediately followed by
`\n` is consumed together with it, any other character is ordinary. -/
def splitLines : Str → List Str
  | [] => [[]]
  | '\n' :: rest => [] :: splitLines rest
  | '\r' :: '\n' :: rest => [] :: splitLines rest
  | c :: rest =>
    match splitLines rest with
    | [] => [[c]]
    | l :: ls => (c :: l) :: ls

/-- Models `lines.join('\n')`. -/
def joinLines : List Str → Str
  | [] => []
  | [l] => l
  | l :: rest => l ++ '\n' :: joinLines rest

/-- Models `segments.join('\n\n')` — also the "join with a blank line" of the spec. -/
def joinBlank : List Str → Str
  | [] => []
  | [s] => s
  | s :: rest => s ++ '\n' :: '\n' :: joinBlank rest

/-- The triple-backtick fence marker. -/
def fenceMarker : Str := ['`', '`', '`']

/-- A code-fence delimiter line: `line.trim().startsWith('```')`. -/
def isFenceLine (l : Str) : Bool := fenceMarker.isPrefixOf (trim l)

/-- Number of code-fence delimiter lines of a text. -/
def countFences (t : Str) : Nat := (splitLines t).countP isFenceLine

/-- Drop one trailing `'\r'` (what `/\r?\n/` consumes in front of a `'\n'`
when a line ends in `'\r'`). -/
def stripCR : Str → Str
  | [] => []
  | ['\r'] => []
  | [c] => [c]
  | c :: rest => c :: stripCR rest

/-- Apply `f` to the last element of a list. -/
def modifyLast (f : Str → Str) : List Str → List Str
  | [] => []
  | [l] => [f l]
  | l :: rest => l :: modifyLast f rest

/-! ## Segmenter (`TranslationService.splitIntoSegments`) -/

/-- The loop body of `splitIntoSegments`: walk the lines keeping a buffer of
lines and the in-fence flag; a fence line is pushed and toggles the flag, a
blank line outside a fence flushes the buffer, any other line is pushed.
A segment is represented here as its list of buffered lines. -/
def segmentLoop : List Str → List Str → Bool → List (List Str)
  | [], buffer, _ => if buffer = [] then [] else [buffer]
  | line :: rest, buffer, inFence =>
    if isFenceLine line then
      segmentLoop rest (buffer ++ [line]) (!inFence)
    else if !inFence && trim line = [] then
      (if buffer = [] then [] else [buffer]) ++ segmentLoop rest [] inFence
    else
      segmentLoop rest (buffer ++ [line]) inFence

/-- Models `TranslationService.splitIntoSegments`. -/
def splitIntoSegments (markdown : Str) : List Str :=
  let segments := (segmentLoop (splitLines markdown) [] false).map joinLines
  if segments = [] ∧ trim markdown ≠ [] then [markdown] else segments

/-! ## Adaptive merging (`TranslationService.mergeSegments`) -/

def ADAPTIVE_TARGET_LENGTH : Nat := 500
def ADAPTIVE_MAX_LENGTH : Nat := 1400

/-- Models `pushBuffer` of `mergeSegments`: append the buffer to the merged list
when it has non-whitespace content, and reset it. -/
def pushBuf (merged : List Str) (buffer : Str) : List Str :=
  if trim buffer = [] then merged else merged ++ [buffer]

/-- The loop of `mergeSegments` (buffer and accumulator passed explicitly). -/
def mergeLoop : List Str → Str → List Str → List Str
  | [], buffer, merged => pushBuf merged buffer
  | seg :: rest, buffer, merged =>
    if trim buffer = [] then
      if seg.length ≥ ADAPTIVE_TARGET_LENGTH then
        mergeLoop rest [] (pushBuf merged seg)
      else
        mergeLoop rest seg merged
    else
      let candidate := buffer ++ '\n' :: '\n' :: seg
      if candidate.length > ADAPTIVE_MAX_LENGTH then
        if seg.length ≥ ADAPTIVE_TARGET_LENGTH ∨ seg.length > ADAPTIVE_MAX_LENGTH then
          mergeLoop rest [] (pushBuf (pushBuf merged buffer) seg)
        else
          mergeLoop rest seg (pushBuf merged buffer)
      else if candidate.length ≥ ADAPTIVE_TARGET_LENGTH ∨ trim seg = [] then
        mergeLoop rest [] (pushBuf merged candidate)
      else
        mergeLoop rest candidate merged

/-- Models `TranslationService.mergeSegments`. -/
def mergeSegments (segments : List Str) : List Str :=
  let merged := mergeLoop segments [] []
  if merged = [] then segments else merged

/-- Models `TranslationService.planSegments`, restricted to the produced segment
list (the metrics it also returns are derived data not needed here). -/
def planSegments (adaptive : Bool) (markdown : Str) : List Str :=
  let base := splitIntoSegments markdown
  if adaptive then mergeSegments base else base

/-! ## Response normalization (`TranslationService.normalizeSegmentTranslation`) -/

/-- Literal strings as character lists. -/
def litS (x : String) : Str := x.data

/-- ASCII lowering, the fragment of `toLowerCase` relevant to language tags. -/
def asciiLower (c : Char) : Char :=
  if 'A' ≤ c ∧ c ≤ 'Z' then Char.ofNat (c.toNat + 32) else c

/-- The character class kept by `replace(/[^a-z0-9-]/g, '')`. -/
def isLangChar (c : Char) : Bool :=
  ('a' ≤ c && c ≤ 'z') || ('0' ≤ c && c ≤ '9') || c = '-'

/-- Substring test (`String.prototype.includes`). -/
def containsSub (pat : Str) : Str → Bool
  | [] => decide (pat = [])
  | c :: rest => pat.isPrefixOf (c :: rest) || containsSub pat rest

/-- Models `TranslationService.WRAPPED_MARKDOWN_LANGUAGES`. -/
def WRAPPED_MARKDOWN_LANGUAGES : List Str :=
  [litS "", litS "markdown", litS "md", litS "mdx", litS "commonmark", litS "gfm",
   litS "github-flavored-markdown", litS "plain", litS "plaintext", litS "text",
   litS "txt", litS "none"]

/-- The `shouldUnwrap` condition of `normalizeSegmentTranslation`. -/
def shouldUnwrapLanguage (lang : Str) : Bool :=
  decide (lang ∈ WRAPPED_MARKDOWN_LANGUAGES) ||
    (litS "md-").isPrefixOf lang ||
    containsSub (litS "markdown") lang ||
    containsSub (litS "commonmark") lang ||
    containsSub (litS "gfm") lang

/-- Models the regex test `/^```(?:\s*)$/.test(l)`. -/
def isClosingFence (l : Str) : Bool :=
  fenceMarker.isPrefixOf l && (l.drop 3).all isWS

/-- Models `TranslationService.isStandaloneCodeFence`. -/
def isStandaloneCodeFence (markdown : Str) : Bool :=
  if markdown = [] then false
  else
    let trimmed := trim markdown
    if !(fenceMarker.isPrefixOf trimmed) || !(fenceMarker.isSuffixOf trimmed) then false
    else
      let lines := splitLines trimmed
      if lines.length < 3 then false
      else isClosingFence (trim (lines.getLastD []))

/-- Models `TranslationService.normalizeSegmentTranslation`. -/
def normalizeSegmentTranslation (segmentMarkdown translatedMarkdown : Str) : Str :=
  if translatedMarkdown = [] then translatedMarkdown
  else
    let trimmedResponse := trim translatedMarkdown
    if !(fenceMarker.isPrefixOf trimmedResponse) then translatedMarkdown
    else
      let lines := splitLines trimmedResponse
      if lines.length < 3 then translatedMarkdown
      else
        let opening := lines.headD []
        if !(fenceMarker.isPrefixOf opening) then translatedMarkdown
        else
          let closing := trim (lines.getLastD [])
          if !(isClosingFence closing) then translatedMarkdown
          else
            let languageIdentifier := (trim (opening.drop 3)).map asciiLower
            let normalizedLanguage := languageIdentifier.filter isLangChar
            let body := joinLines ((lines.drop 1).dropLast)
            let sourceTrimmed := trim segmentMarkdown
            if isStandaloneCodeFence sourceTrimmed then translatedMarkdown
            else if shouldUnwrapLanguage normalizedLanguage then body
            else translatedMarkdown

/-! ## Error taxonomy and message sanitization -/

inductive TranslationErrorCode
  | authentication | timeout | rateLimit | network | server | invalidResponse | unknown
  deriving DecidableEq, Repr

/-- The TS string literal of an error code (used in placeholder text). -/
def codeText : TranslationErrorCode → Str
  | .authentication => litS "authentication"
  | .timeout => litS "timeout"
  | .rateLimit => litS "rateLimit"
  | .network => litS "network"
  | .server => litS "server"
  | .invalidResponse => litS "invalidResponse"
  | .unknown => litS "unknown"

/-- Models `message.replace(/\s+/g, ' ')`: every maximal whitespace run becomes one
space. -/
def collapseWS : Str → Str
  | [] => []
  | [c] => if isWS c then [' '] else [c]
  | c :: d :: rest =>
    if isWS c && isWS d then collapseWS (d :: rest)
    else (if isWS c then ' ' else c) :: collapseWS (d :: rest)

/-- Models `TranslationService.sanitizeErrorMessage`. -/
def sanitizeErrorMessage (message : Str) : Str :=
  let normalized := trim (collapseWS message)
  if normalized.length > 180 then normalized.take 177 ++ litS "..." else normalized

/-- Models `TranslationService.isFatalCode`. -/
def isFatalCode (code : TranslationErrorCode) : Bool := code = .authentication

/-- Models `TranslationService.buildPlaceholderSegment`. -/
def buildPlaceholderSegment (code : TranslationErrorCode) (message : Str)
    (segmentMarkdown : Str) : Str :=
  let sanitizedMessage := sanitizeErrorMessage message
  let headerLines :=
    [litS "> Translation failed (" ++ codeText code ++ litS "). Showing original text instead."]
      ++ (if sanitizedMessage ≠ [] then [litS "> " ++ sanitizedMessage] else [])
  let header := joinLines headerLines
  let body := if trim segmentMarkdown ≠ [] then '\n' :: '\n' :: segmentMarkdown else []
  header ++ body

/-! ## Provider client (`OpenAITranslationClient`)

The network call is modelled by its observable outcome: either an HTTP
response (ok flag, status, optional completion content) or a thrown value.
The classification pipeline below is translated from `translate`,
`mapStatusToError` and `normalizeError`. -/

structure ErrClass where
  code : TranslationErrorCode
  retryable : Bool
  deriving DecidableEq, Repr

/-- Models `OpenAITranslationClient.mapStatusToError`. -/
def mapStatusToError (status : Nat) : ErrClass :=
  if status = 401 ∨ status = 403 then ⟨.authentication, false⟩
  else if status = 408 then ⟨.timeout, true⟩
  else if status = 429 then ⟨.rateLimit, true⟩
  else if 500 ≤ status ∧ status < 600 then ⟨.server, true⟩
  else ⟨.unknown, false⟩

/-- Models `OpenAITranslationClient.normalizeError` (classification of a transport
error that carries no HTTP status, from its message text). -/
def normalizeError (message : Str) : ErrClass :=
  let normalized := message.map asciiLower
  if containsSub (litS "etimedout") normalized ||
     containsSub (litS "timeout") normalized ||
     containsSub (litS "timed out") normalized then ⟨.timeout, true⟩
  else if containsSub (litS "econnrefused") normalized ||
          containsSub (litS "econnreset") normalized ||
          containsSub (litS "enotfound") normalized ||
          containsSub (litS "network") normalized ||
          containsSub (litS "fetch failed") normalized ||
          containsSub (litS "socket hang up") normalized then ⟨.network, true⟩
  else ⟨.unknown, false⟩

/-- A value thrown inside the `try` block of `translate`. -/
inductive ThrownError
  /-- A `TranslationProviderError` (from a non-ok status or empty content). -/
  | provider (c : ErrClass)
  /-- A `vscode.CancellationError`. -/
  | cancellationError
  /-- A fetch abort (`error.name === 'AbortError'`). -/
  | abortError
  /-- A generic `Error` with a message. -/
  | jsError (message : Str)
  /-- A thrown non-`Error` value. -/
  | otherValue
  deriving DecidableEq

/-- What the caller of `translate` observes. -/
inductive TranslateOutcome
  | success (markdown : Str)
  /-- Models `vscode.CancellationError`. -/
  | cancelled
  /-- A `TranslationProviderError` classification. -/
  | failure (c : ErrClass)
  deriving DecidableEq

/-- The result of the `fetch` call. -/
inductive FetchResult
  | response (ok : Bool) (status : Nat) (content : Option Str)
  | threw (e : ThrownError)

/-- The `try` block of `translate` after the fetch resolved: non-ok statuses
throw the mapped provider error; an ok response with missing or empty
completion content throws `invalidResponse`. -/
def tryBody : FetchResult → Except ThrownError Str
  | .threw e => .error e
  | .response ok status content =>
    if !ok then .error (.provider (mapStatusToError status))
    else
      match content with
      | none => .error (.provider ⟨.invalidResponse, false⟩)
      | some m => if m = [] then .error (.provider ⟨.invalidResponse, false⟩) else .ok m

/-- The `catch` cascade of `translate`. `signalAborted` is the state of the
caller's cancellation signal at catch time, `timedOut` records whether the
client's own timeout callback fired, and `controllerAborted` is the state of
the internal abort controller. -/
def handleTranslateError (signalAborted timedOut controllerAborted : Bool)
    (e : ThrownError) : TranslateOutcome :=
  if signalAborted && !timedOut then .cancelled
  else if controllerAborted && timedOut then .failure ⟨.timeout, true⟩
  else
    match e with
    | .cancellationError => .cancelled
    | .provider c => .failure c
    | .abortError => .cancelled
    | .jsError message => .failure (normalizeError message)
    | .otherValue => .failure ⟨.unknown, false⟩

/-- Models `OpenAITranslationClient.translate`, as a function of the observable
nondeterminism (initial signal state, fetch outcome, signal/timeout state at
catch time). -/
def translateModel (signalAbortedAtStart : Bool) (fetch : FetchResult)
    (signalAborted timedOut controllerAborted : Bool) : TranslateOutcome :=
  if signalAbortedAtStart then .cancelled
  else
    match tryBody fetch with
    | .ok m => .success m
    | .error e => handleTranslateError signalAborted timedOut controllerAborted e

/-! ## Per-segment retry and recovery
(`TranslationService.translateSegmentWithRetries`, `tryRecoverSegment`,
`buildPlaceholderSegment`)

The provider calls made by one segment are modelled by a script
`calls : Nat → CallOutcome` (`calls k` is the result of the `k+1`-st call)
and the cancellation signal by `aborted : Nat → Bool` (its state at the
check preceding the `k+1`-st call). -/

structure ProviderError where
  message : Str
  code : TranslationErrorCode
  retryable : Bool
  deriving DecidableEq

structure RawTranslationResult where
  markdown : Str
  providerId : Str
  latencyMs : Nat
  deriving DecidableEq

inductive CallOutcome
  | ok (r : RawTranslationResult)
  | err (e : ProviderError)

structure CachedSegmentResult where
  markdown : Str
  providerId : Str
  latencyMs : Nat

inductive RecoveryType
  | cacheFallback | placeholder
  deriving DecidableEq, Repr

structure SegmentRecovery where
  type : RecoveryType
  code : TranslationErrorCode
  attempts : Nat
  message : Str
  deriving DecidableEq

inductive SegmentOutcome
  | success (r : RawTranslationResult) (shouldCache : Bool)
  | recovered (r : RawTranslationResult) (recovery : SegmentRecovery) (shouldCache : Bool)
  | failed (e : ProviderError)
  | cancelled

/-- How the retry loop of `translateSegmentWithRetries` exits.
`k` is the value of the `attempt` counter after the exit. -/
inductive RetryExit
  | cancelledAt (k : Nat)
  | succeeded (k : Nat) (r : RawTranslationResult)
  | fatal (k : Nat) (e : ProviderError)
  | exhausted (k : Nat) (lastError : Option ProviderError)

/-- The `while (attempt < maxAttempts)` loop.  `k` is the current value of
`attempt`; `remaining` is `maxAttempts - k`. -/
def retryLoop (calls : Nat → CallOutcome) (aborted : Nat → Bool) :
    Nat → Nat → RetryExit
  | k, 0 => .exhausted k none
  | k, remaining + 1 =>
    if aborted k then .cancelledAt (k + 1)
    else
      match calls k with
      | .ok r => .succeeded (k + 1) r
      | .err e =>
        if isFatalCode e.code then .fatal (k + 1) e
        else if e.retryable && remaining > 0 then retryLoop calls aborted (k + 1) remaining
        else .exhausted (k + 1) (some e)

/-- Models `TranslationService.tryRecoverSegment`, with the segment-cache lookup
result supplied as `cached`.  Both branches produce a recovery (the source
never returns `undefined`). -/
def tryRecoverSegment (cached : Option CachedSegmentResult) (segmentMarkdown : Str)
    (error : ProviderError) (attempts : Nat) (model : Str) :
    RawTranslationResult × SegmentRecovery :=
  let sanitizedMessage := sanitizeErrorMessage error.message
  match cached with
  | some c =>
    let normalizedMarkdown := normalizeSegmentTranslation segmentMarkdown c.markdown
    (⟨normalizedMarkdown, c.providerId, c.latencyMs⟩,
     ⟨.cacheFallback, error.code, attempts, sanitizedMessage⟩)
  | none =>
    (⟨buildPlaceholderSegment error.code error.message segmentMarkdown, model, 0⟩,
     ⟨.placeholder, error.code, attempts, sanitizedMessage⟩)

/-- The synthetic error used when the loop ended without recording one. -/
def fallbackUnknownError : ProviderError := ⟨litS "Translation failed.", .unknown, false⟩

/-- Models `TranslationService.translateSegmentWithRetries`. -/
def translateSegmentWithRetries (calls : Nat → CallOutcome) (aborted : Nat → Bool)
    (attemptLimit : Nat) (cached : Option CachedSegmentResult)
    (segmentMarkdown : Str) (model : Str) : SegmentOutcome :=
  let maxAttempts := max attemptLimit 1
  match retryLoop calls aborted 0 maxAttempts with
  | .cancelledAt _ => .cancelled
  | .succeeded _ r =>
    .success { r with markdown := normalizeSegmentTranslation segmentMarkdown r.markdown } true
  | .fatal _ e => .failed e
  | .exhausted k lastError =>
    let lastError := lastError.getD fallbackUnknownError
    if isFatalCode lastError.code then .failed lastError
    else
      let (r, recovery) := tryRecoverSegment cached segmentMarkdown lastError (max k 1) model
      .recovered r recovery false

/-! ## Ordered reassembly (`TranslationService.executeSegments`)

The bounded worker pool is abstracted into the nondeterministic order in
which segment results become available: `order` lists segment indices in
completion order, and `results i` is what processing segment `i` produced
(a finished entry placed into `pending`, or a captured failure).  The flush
machinery, the `combinedMarkdown` array, the emitted `onSegment` updates, the
recovery list and the captured run error are translated directly.  The HTML
field of an update (computed by the external markdown renderer) is omitted. -/

structure SegEntry where
  markdown : Str
  latencyMs : Nat
  providerId : Str
  wasCached : Bool
  recovery : Option SegmentRecovery
  deriving DecidableEq

/-- One `onSegment` callback invocation. -/
structure SegmentUpdate where
  segmentIndex : Nat
  markdown : Str
  latencyMs : Nat
  providerId : Str
  wasCached : Bool
  recovery : Option SegmentRecovery
  deriving DecidableEq

/-- One entry of the run's recovery list. -/
structure TranslationRecovery where
  segmentIndex : Nat
  code : TranslationErrorCode
  type : RecoveryType
  attempts : Nat
  message : Str
  deriving DecidableEq

def mkUpdate (idx : Nat) (e : SegEntry) : SegmentUpdate :=
  ⟨idx, e.markdown, e.latencyMs, e.providerId, e.wasCached, e.recovery⟩

def mkRecovery (idx : Nat) (r : SegmentRecovery) : TranslationRecovery :=
  ⟨idx, r.code, r.type, r.attempts, r.message⟩

/-- What one worker iteration contributed for its segment. -/
inductive SegResult
  /-- The segment finished (success, cache hit, or recovery) with this entry. -/
  | done (e : SegEntry)
  /-- The segment failed; the worker records `capturedError` and stops. -/
  | failedSeg (e : ProviderError)

structure ExecState where
  pending : Nat → Option SegEntry
  flushIndex : Nat
  events : List SegmentUpdate
  combined : Nat → Option Str
  aggregateLatency : Nat
  providerId : Option Str
  recoveries : List TranslationRecovery
  captured : Option (ProviderError × Nat)

def initState : ExecState :=
  ⟨fun _ => none, 0, [], fun _ => none, 0, none, [], none⟩

/-- The `flush` closure of `executeSegments`: emit every consecutive pending
entry starting at `flushIndex`.  `fuel` bounds the loop (any value at least
the number of pending entries is exact). -/
def flushLoop : Nat → ExecState → ExecState
  | 0, s => s
  | fuel + 1, s =>
    match s.pending s.flushIndex with
    | none => s
    | some e =>
      flushLoop fuel
        { pending := fun j => if j = s.flushIndex then none else s.pending j
          flushIndex := s.flushIndex + 1
          events := s.events ++ [mkUpdate s.flushIndex e]
          combined := fun j =>
            if j = s.flushIndex then some (trimRight e.markdown) else s.combined j
          aggregateLatency := s.aggregateLatency + e.latencyMs
          providerId := some e.providerId
          recoveries := s.recoveries ++
            (match e.recovery with
             | some r => [mkRecovery s.flushIndex r]
             | none => [])
          captured := s.captured }

/-- Processing the completion of segment `i` (with `n` total segments):
a finished entry is placed into `pending` and flushed; a failure overwrites
`capturedError`. -/
def execStep (n : Nat) (results : Nat → SegResult) (s : ExecState) (i : Nat) : ExecState :=
  match results i with
  | .failedSeg e => { s with captured := some (e, i) }
  | .done entry =>
    flushLoop n { s with pending := fun j => if j = i then some entry else s.pending j }

/-- The state after all completions in `order` have been processed. -/
def execRun (n : Nat) (results : Nat → SegResult) (order : List Nat) : ExecState :=
  order.foldl (execStep n results) initState

structure RunError where
  code : TranslationErrorCode
  segmentIndex : Option Nat
  message : Str
  deriving DecidableEq

structure CombinedResult where
  markdown : Str
  providerId : Str
  latencyMs : Nat
  recoveries : List TranslationRecovery
  deriving DecidableEq

inductive RunOutcome
  | ok (r : CombinedResult)
  | err (e : RunError)
  deriving DecidableEq

/-- The tail of `executeSegments`: throw the captured error as a
`TranslationRunError`, or assemble `combinedMarkdown.map(c => c ?? '').join('\n\n')`. -/
def execOutcome (n : Nat) (model : Str) (s : ExecState) : RunOutcome :=
  match s.captured with
  | some (e, i) => .err ⟨e.code, some i, sanitizeErrorMessage e.message⟩
  | none =>
    .ok ⟨joinBlank ((List.range n).map fun j => (s.combined j).getD []),
         s.providerId.getD model, s.aggregateLatency, s.recoveries⟩

/-- Models `executeSegments` end to end for a given completion order. -/
def executeSegmentsModel (n : Nat) (model : Str) (results : Nat → SegResult)
    (order : List Nat) : RunOutcome :=
  execOutcome n model (execRun n results order)

/-! ## Run-level fallback (`TranslationService.translateDocument`) and
document-cache gating (`TranslationPreviewManager.render`). -/

/-- Whether `translateDocument` starts the serial (concurrency = 1) fallback
run after the parallel run finished with `parallelOutcome`
(source lines 196-227: only a non-cancellation, non-fatal run error with
`parallelismFallbackEnabled` falls back). -/
def runsSerialFallback (parallelOutcome : RunOutcome)
    (parallelismFallbackEnabled : Bool) : Bool :=
  match parallelOutcome with
  | .ok _ => false
  | .err e => parallelismFallbackEnabled && !(isFatalCode e.code)

/-- Models `TranslationPreviewManager.render`: the combined result is written to the
document-level cache iff the recovery list is empty
(`shouldPersistDocumentCache = recoveries.length === 0`). -/
def shouldPersistDocumentCache (recoveries : List TranslationRecovery) : Bool :=
  recoveries.length = 0

/-! ## Numeric retry policy (`normalizeRetryAttempts`, `calculateRetryDelay`)

JS numbers that reach `normalizeRetryAttempts` are modelled as either a
non-finite value or an exact rational; `Math.random() * 100` is modelled as
a rational jitter parameter `j` with `0 ≤ j < 100`. -/

inductive JSNumber
  | nan | posInf | negInf
  | finite (q : ℚ)

/-- Models `Number.isFinite`. -/
def jsIsFinite : JSNumber → Bool
  | .finite _ => true
  | _ => false

/-- Models `TranslationService.normalizeRetryAttempts`. -/
def normalizeRetryAttempts : JSNumber → ℤ
  | .finite q => max 1 (min ⌊q⌋ 6)
  | _ => 1

/-- Models `TranslationService.calculateRetryDelay` with the jitter made explicit:
`Math.min(base * Math.pow(2, attempt - 1) + jitter, max)`. -/
def calculateRetryDelay (attempt : Nat) (jitter : ℚ) : ℚ :=
  min (250 * 2 ^ (attempt - 1) + jitter) 2000

/-! ## Translation cache (`TranslationCache`)

The four maps of the class are modelled as partial functions; document-level
keys are the concatenated strings `uri ++ "::" ++ version ++ "::" ++ hash`
built by `buildKey`, segment keys are fingerprints.  The `for` loop of
`clearForDocument` over `documentSegments.get(uri)` touches each fingerprint
independently, so it is rendered pointwise. -/

structure DocCacheEntry where
  markdown : Str
  timestamp : Nat

structure SegCacheEntry where
  markdown : Str
  timestamp : Nat

structure CacheState where
  cache : Str → Option DocCacheEntry
  segmentCache : Str → Option SegCacheEntry
  segmentOwners : Str → Option (Finset Str)
  documentSegments : Str → Option (Finset Str)

/-- Models `TranslationCache.clearForDocument`. -/
def clearForDocument (uri : Str) (s : CacheState) : CacheState :=
  let pre := uri ++ litS "::"
  { cache := fun k => if pre.isPrefixOf k then none else s.cache k
    segmentCache := fun fp =>
      match s.documentSegments uri with
      | none => s.segmentCache fp
      | some fps =>
        if fp ∈ fps then
          match s.segmentOwners fp with
          | some owners => if owners.erase uri = ∅ then none else s.segmentCache fp
          | none => none
        else s.segmentCache fp
    segmentOwners := fun fp =>
      match s.documentSegments uri with
      | none => s.segmentOwners fp
      | some fps =>
        if fp ∈ fps then
          match s.segmentOwners fp with
          | some owners =>
            let owners' := owners.erase uri
            if owners' = ∅ then none else some owners'
          | none => none
        else s.segmentOwners fp
    documentSegments := fun d => if d = uri then none else s.documentSegments d }

/-- The fingerprints `clearForDocument uri` iterates over. -/
def touchedFingerprints (uri : Str) (s : CacheState) : Finset Str :=
  (s.documentSegments uri).getD ∅

/-- Count of the consecutive run of indices satisfying `p`, beginning at
`start`, bounded by `fuel`. -/
def fcAux (p : Nat → Bool) : Nat → Nat → Nat
  | 0, _ => 0
  | fuel + 1, start => if p start then fcAux p fuel (start + 1) + 1 else 0

/-- Length of the maximal prefix `0, 1, …` of the segment indices contained
in the completed set `done` — what the flush loop has emitted. -/
def flushedCount (done : List Nat) (n : Nat) : Nat :=
  fcAux (fun j => decide (j ∈ done)) n 0

/-- The state invariant of the flush machinery: with completed set `done`
and `f = flushedCount done n`, exactly the prefix `[0, f)` has been flushed
(in order), everything else completed is parked in `pending`. -/
structure ExecInv (n : Nat) (entry : Nat → SegEntry) (done : List Nat) (f : Nat)
    (s : ExecState) : Prop where
  flushIdx : s.flushIndex = f
  pendingEq : ∀ j, s.pending j =
    if j ∈ done ∧ f ≤ j ∧ j < n then some (entry j) else none
  eventsEq : s.events = (List.range f).map (fun j => mkUpdate j (entry j))
  combinedEq : ∀ j, s.combined j =
    if j < f then some (trimRight (entry j).markdown) else none
  recoveriesEq : s.recoveries = (List.range f).filterMap
    (fun j => ((entry j).recovery).map (mkRecovery j))
  capturedEq : s.captured = none

/-- A well-formed URI string for the composite-key scheme: it contains no
`::` and does not end in `:` (true of every `vscode.Uri.toString()`). -/
def cleanUri (u : Str) : Prop := ¬ (litS "::" <:+: u) ∧ ¬ (litS ":" <:+ u)

/-- A concrete cache state: documents `a.md` and `b.md`; fingerprint `fp1`
owned by both, `fp2` owned by `a.md` alone. -/
def sampleCacheState : CacheState where
  cache := fun k =>
    if k = litS "file:///a.md" ++ litS "::" ++ litS "1::h" then some ⟨litS "docA", 0⟩
    else if k = litS "file:///b.md" ++ litS "::" ++ litS "1::h" then some ⟨litS "docB", 0⟩
    else none
  segmentCache := fun fp =>
    if fp = litS "fp1" then some ⟨litS "t1", 0⟩
    else if fp = litS "fp2" then some ⟨litS "t2", 0⟩
    else none
  segmentOwners := fun fp =>
    if fp = litS "fp1" then some {litS "file:///a.md", litS "file:///b.md"}
    else if fp = litS "fp2" then some {litS "file:///a.md"}
    else none
  documentSegments := fun d =>
    if d = litS "file:///a.md" then some {litS "fp1", litS "fp2"}
    else if d = litS "file:///b.md" then some {litS "fp1"}
    else none

/-! ## Theorems -/

/-- A message is timeout-like when its lowercased text contains one of the
timeout markers checked by `normalizeError`. -/
def timeoutLike (message : Str) : Bool :=
  containsSub (litS "etimedout") (message.map asciiLower) ||
  containsSub (litS "timeout") (message.map asciiLower) ||
  containsSub (litS "timed out") (message.map asciiLower)

/-- A message is network-like when its lowercased text contains one of the
network markers checked by `normalizeError`. -/
def networkLike (message : Str) : Bool :=
  containsSub (litS "econnrefused") (message.map asciiLower) ||
  containsSub (litS "econnreset") (message.map asciiLower) ||
  containsSub (litS "enotfound") (message.map asciiLower) ||
  containsSub (litS "network") (message.map asciiLower) ||
  containsSub (litS "fetch failed") (message.map asciiLower) ||
  containsSub (litS "socket hang up") (message.map asciiLower)

/-- C4: the provider client classifies failed calls by HTTP status
(401/403 → authentication, not retryable; 408 → timeout, retryable;
429 → rateLimit, retryable; 5xx → server, retryable), an OK response with
empty completion content as invalidResponse (not retryable), and
status-less transport failures from the message text (timeout-like →
timeout, retryable; network-like → network, retryable). -/
theorem C4_error_classification :
    mapStatusToError 401 = ⟨.authentication, false⟩ ∧
    mapStatusToError 403 = ⟨.authentication, false⟩ ∧
    mapStatusToError 408 = ⟨.timeout, true⟩ ∧
    mapStatusToError 429 = ⟨.rateLimit, true⟩ ∧
    (∀ st : Nat, 500 ≤ st → st < 600 → mapStatusToError st = ⟨.server, true⟩) ∧
    (∀ st c, translateModel false (.response false st c) false false false =
      .failure (mapStatusToError st)) ∧
    (∀ st, translateModel false (.response true st none) false false false =
      .failure ⟨.invalidResponse, false⟩) ∧
    (∀ st, translateModel false (.response true st (some [])) false false false =
      .failure ⟨.invalidResponse, false⟩) ∧
    (∀ msg, timeoutLike msg = true → normalizeError msg = ⟨.timeout, true⟩) ∧
    (∀ msg, timeoutLike msg = false → networkLike msg = true →
      normalizeError msg = ⟨.network, true⟩) ∧
    (∀ msg, translateModel false (.threw (.jsError msg)) false false false =
      .failure (normalizeError msg)) := by
  refine ⟨by decide, by decide, by decide, by decide, ?_, ?_, ?_, ?_, ?_, ?_, ?_⟩
  · intro st h1 h2
    unfold mapStatusToError
    rw [if_neg (by omega), if_neg (by omega), if_neg (by omega), if_pos (by omega)]
  · intro st c
    simp [translateModel, tryBody, handleTranslateError]
  · intro st
    simp [translateModel, tryBody, handleTranslateError]
  · intro st
    simp [translateModel, tryBody, handleTranslateError]
  · intro msg h
    unfold normalizeError
    simp only [timeoutLike, Bool.or_eq_true] at h
    rw [if_pos (by simpa [Bool.or_eq_true] using h)]
  · intro msg h1 h2
    unfold normalizeError
    simp only [timeoutLike, Bool.or_eq_true] at h1
    simp only [networkLike, Bool.or_eq_true] at h2
    rw [if_neg (by simpa [Bool.or_eq_true] using h1),
        if_pos (by simpa [Bool.or_eq_true] using h2)]
  · intro msg
    simp [translateModel, tryBody, handleTranslateError]

/-- C4 witness: the classification evaluated at concrete inputs. -/
theorem C4_error_classification_witness :
    mapStatusToError 503 = ⟨.server, true⟩ ∧
    normalizeError (litS "Connect ETIMEDOUT 1.2.3.4") = ⟨.timeout, true⟩ ∧
    normalizeError (litS "fetch failed") = ⟨.network, true⟩ :=
  ⟨C4_error_classification.2.2.2.2.1 503 (by decide) (by decide),
   C4_error_classification.2.2.2.2.2.2.2.2.1 (litS "Connect ETIMEDOUT 1.2.3.4") (by decide),
   C4_error_classification.2.2.2.2.2.2.2.2.2.1 (litS "fetch failed") (by decide) (by decide)⟩

/-- C5: when the provider call's `try` block throws while the caller's
cancellation signal has fired and the client's own timeout has not, the
outcome is the distinct cancellation outcome (never a provider failure);
when the client's own timeout elapsed (its abort controller fired), the
outcome is a provider error with code timeout, retryable, not a
cancellation.  An already-aborted signal also yields cancellation before any
call. -/
theorem C5_cancellation_vs_timeout :
    (∀ (e : ThrownError) (controllerAborted : Bool),
      translateModel false (.threw e) true false controllerAborted = .cancelled) ∧
    (∀ (e : ThrownError) (signalAborted : Bool),
      translateModel false (.threw e) signalAborted true true = .failure ⟨.timeout, true⟩) ∧
    (∀ (fetch : FetchResult) (s1 t1 c1 : Bool), translateModel true fetch s1 t1 c1 = .cancelled) := by
  refine ⟨?_, ?_, ?_⟩
  · intro e ca
    simp [translateModel, tryBody, handleTranslateError]
  · intro e sa
    simp [translateModel, tryBody, handleTranslateError]
  · intro fetch s1 t1 c1
    simp [translateModel]

/-- C5 witness: concrete evaluations of both outcomes. -/
theorem C5_cancellation_vs_timeout_witness :
    translateModel false (.threw .abortError) true false true = .cancelled ∧
    translateModel false (.threw .abortError) false true true = .failure ⟨.timeout, true⟩ :=
  ⟨C5_cancellation_vs_timeout.1 .abortError true,
   C5_cancellation_vs_timeout.2.1 .abortError false⟩

/-- C8: the retry limit is `retryMaxAttempts` clamped to [1, 6] (non-finite
values become 1), and the delay before a retry is the base-250ms
exponential (doubling per attempt), capped at 2000ms, plus a jitter
strictly below 100ms. -/
theorem C8_retry_policy :
    (∀ v : JSNumber, 1 ≤ normalizeRetryAttempts v ∧ normalizeRetryAttempts v ≤ 6) ∧
    (∀ q : ℚ, normalizeRetryAttempts (.finite q) = min 6 (max 1 ⌊q⌋)) ∧
    (∀ v : JSNumber, jsIsFinite v = false → normalizeRetryAttempts v = 1) ∧
    (∀ (a : Nat) (j : ℚ), 1 ≤ a → 0 ≤ j → j < 100 →
      min ((250 : ℚ) * 2 ^ (a - 1)) 2000 ≤ calculateRetryDelay a j ∧
      calculateRetryDelay a j < min ((250 : ℚ) * 2 ^ (a - 1)) 2000 + 100 ∧
      calculateRetryDelay a j ≤ 2000 ∧
      calculateRetryDelay (a + 1) j = min (2 * (250 * 2 ^ (a - 1)) + j) 2000) := by
  refine ⟨?_, ?_, ?_, ?_⟩
  · intro v
    cases v <;> simp only [normalizeRetryAttempts] <;> omega
  · intro q
    simp only [normalizeRetryAttempts]
    omega
  · intro v h
    cases v <;> simp_all [normalizeRetryAttempts, jsIsFinite]
  · intro a j ha hj0 hj100
    have hpow : (0 : ℚ) < 2 ^ (a - 1) := by positivity
    refine ⟨?_, ?_, ?_, ?_⟩
    · unfold calculateRetryDelay
      rcases le_total ((250 : ℚ) * 2 ^ (a - 1)) 2000 with h | h
      · rw [min_eq_left h]
        exact le_min (by linarith) h
      · rw [min_eq_right h]
        exact le_min (by linarith) le_rfl
    · unfold calculateRetryDelay
      rcases le_total ((250 : ℚ) * 2 ^ (a - 1)) 2000 with h | h
      · rw [min_eq_left h]
        have := min_le_left ((250 : ℚ) * 2 ^ (a - 1) + j) 2000
        linarith
      · rw [min_eq_right h]
        have := min_le_right ((250 : ℚ) * 2 ^ (a - 1) + j) 2000
        linarith
    · exact min_le_right _ _
    · unfold calculateRetryDelay
      have : a + 1 - 1 = a := by omega
      rw [this]
      have : (2 : ℚ) ^ a = 2 * 2 ^ (a - 1) := by
        conv_lhs => rw [show a = 1 + (a - 1) by omega]
        rw [pow_add, pow_one]
      rw [this]
      ring_nf

/-- C8 witness: the policy evaluated at `retryMaxAttempts = 10.5` and at
attempt 3 with jitter 50. -/
theorem C8_retry_policy_witness :
    normalizeRetryAttempts (.finite (21 / 2)) = min 6 (max 1 ⌊(21 : ℚ) / 2⌋) ∧
    min ((250 : ℚ) * 2 ^ (3 - 1)) 2000 ≤ calculateRetryDelay 3 50 ∧
    calculateRetryDelay 3 50 ≤ 2000 :=
  ⟨C8_retry_policy.2.1 (21 / 2),
   (C8_retry_policy.2.2.2 3 50 (by norm_num) (by norm_num) (by norm_num)).1,
   (C8_retry_policy.2.2.2 3 50 (by norm_num) (by norm_num) (by norm_num)).2.2.1⟩

/-- C6: if the source segment is itself a single standalone code fence, the
provider reply is preserved verbatim (whatever it is); otherwise a reply
that is exactly a `markdown`-tagged fence around `## Heading` is unwrapped
to exactly `## Heading`. -/
theorem C6_fence_unwrap (src reply : Str) :
    (isStandaloneCodeFence (trim src) = true →
      normalizeSegmentTranslation src reply = reply) ∧
    (isStandaloneCodeFence (trim src) = false →
      normalizeSegmentTranslation src (litS "```markdown\n## Heading\n```") =
        litS "## Heading") := by
  constructor
  · intro h
    unfold normalizeSegmentTranslation
    dsimp only
    repeat' split
    all_goals simp_all
  · intro h
    unfold normalizeSegmentTranslation
    rw [if_neg (by decide), if_neg (by decide), if_neg (by decide), if_neg (by decide),
        if_neg (by decide), if_neg (by simp [h]), if_pos (by decide)]
    decide

/-- C6 witness: both directions at concrete segments. -/
theorem C6_fence_unwrap_witness :
    normalizeSegmentTranslation (litS "```ts\ncode\n```")
      (litS "```markdown\n## Heading\n```") = litS "```markdown\n## Heading\n```" ∧
    normalizeSegmentTranslation (litS "Hello world")
      (litS "```markdown\n## Heading\n```") = litS "## Heading" :=
  ⟨(C6_fence_unwrap (litS "```ts\ncode\n```") (litS "```markdown\n## Heading\n```")).1
      (by decide),
   (C6_fence_unwrap (litS "Hello world") (litS "## ignored")).2 (by decide)⟩

/-! ### Lemmas about the retry loop and the captured run error -/

lemma retryLoop_fatal (calls : Nat → CallOutcome) (aborted : Nat → Bool)
    (eA : ProviderError) :
    ∀ (m k0 r : Nat), m < r →
    (∀ j, j ≤ m → aborted (k0 + j) = false) →
    (∀ j, j < m → ∃ e, calls (k0 + j) = .err e ∧ e.retryable = true ∧
      isFatalCode e.code = false) →
    calls (k0 + m) = .err eA → isFatalCode eA.code = true →
    retryLoop calls aborted k0 r = .fatal (k0 + m + 1) eA := by
  intro m
  induction m with
  | zero =>
    intro k0 r hr hab _ hfat hA
    obtain ⟨r', rfl⟩ : ∃ r', r = r' + 1 := ⟨r - 1, by omega⟩
    have h0 : aborted k0 = false := by simpa using hab 0 (by omega)
    simp only [retryLoop, h0]
    simp only [Nat.add_zero] at hfat
    rw [hfat]
    simp [hA]
  | succ m ih =>
    intro k0 r hr hab hpre hfat hA
    obtain ⟨r', rfl⟩ : ∃ r', r = r' + 1 := ⟨r - 1, by omega⟩
    have hr' : m < r' := by omega
    have h0 : aborted k0 = false := by simpa using hab 0 (by omega)
    obtain ⟨e0, he0, hret, hnf⟩ := by simpa using hpre 0 (by omega)
    have hab' : ∀ j, j ≤ m → aborted (k0 + 1 + j) = false := by
      intro j hj
      rw [show k0 + 1 + j = k0 + (j + 1) by omega]
      exact hab (j + 1) (by omega)
    have hpre' : ∀ j, j < m → ∃ e, calls (k0 + 1 + j) = .err e ∧ e.retryable = true ∧
        isFatalCode e.code = false := by
      intro j hj
      rw [show k0 + 1 + j = k0 + (j + 1) by omega]
      exact hpre (j + 1) (by omega)
    have hfat' : calls (k0 + 1 + m) = .err eA := by
      rw [show k0 + 1 + m = k0 + (m + 1) by omega]
      exact hfat
    have hrec := ih (k0 + 1) r' hr' hab' hpre' hfat' hA
    simp only [retryLoop, h0]
    rw [he0]
    simp only [hnf, hret, Bool.false_eq_true, if_false, Bool.true_and, decide_True,
      if_true, gt_iff_lt]
    rw [if_pos (show decide (0 < r') = true by simp only [decide_eq_true_eq]; omega), hrec]
    congr 1
    omega

lemma flushLoop_captured (fuel : Nat) (s : ExecState) :
    (flushLoop fuel s).captured = s.captured := by
  induction fuel generalizing s with
  | zero => rfl
  | succ fuel ih =>
    unfold flushLoop
    cases h : s.pending s.flushIndex with
    | none => rfl
    | some e => rw [ih]

lemma execFold_captured_of_done (n : Nat) (results : Nat → SegResult) :
    ∀ (os : List Nat) (s : ExecState),
    (∀ j ∈ os, ∃ en, results j = .done en) →
    (os.foldl (execStep n results) s).captured = s.captured := by
  intro os
  induction os with
  | nil => intro s _; rfl
  | cons a rest ih =>
    intro s hdone
    obtain ⟨en, hen⟩ := hdone a (by simp)
    simp only [List.foldl_cons]
    rw [ih _ (fun j hj => hdone j (by simp [hj]))]
    simp [execStep, hen, flushLoop_captured]

lemma execFold_captured_failed (n : Nat) (results : Nat → SegResult)
    (i : Nat) (eA : ProviderError) (hres : results i = .failedSeg eA) :
    ∀ (os : List Nat) (s : ExecState), i ∈ os →
    (∀ j ∈ os, j ≠ i → ∃ en, results j = .done en) →
    (os.foldl (execStep n results) s).captured = some (eA, i) := by
  intro os
  induction os with
  | nil => intro s h; cases h
  | cons a rest ih =>
    intro s hmem hdone
    by_cases hir : i ∈ rest
    · simp only [List.foldl_cons]
      exact ih _ hir (fun j hj hne => hdone j (by simp [hj]) hne)
    · have ha : a = i := by
        rcases List.mem_cons.mp hmem with h | h
        · omega
        · exact absurd h hir
      subst ha
      simp only [List.foldl_cons]
      rw [execFold_captured_of_done n results rest _
        (fun j hj => hdone j (by simp [hj]) (fun hji => hir (hji ▸ hj)))]
      simp [execStep, hres]

/-- C2: an authentication failure is fatal. At segment level, if the loop
reaches an attempt whose provider call fails with code `authentication`, the
outcome is `failed` with that error — no further attempt, no recovery (the
hypotheses constrain `calls` only up to the failing attempt, so the result is
independent of any later call).  At run level the captured error surfaces as
a run error carrying the code and the originating segment index, and the
serial fallback never runs for a fatal code, whatever the fallback flag. -/
theorem C2_authentication_aborts_run :
    (∀ (calls : Nat → CallOutcome) (aborted : Nat → Bool) (attemptLimit : Nat)
       (cached : Option CachedSegmentResult) (seg model : Str) (k : Nat)
       (eA : ProviderError),
      (∀ j, j ≤ k → aborted j = false) →
      (∀ j, j < k → ∃ e, calls j = .err e ∧ e.retryable = true ∧
        isFatalCode e.code = false) →
      calls k = .err eA → eA.code = .authentication → k < max attemptLimit 1 →
      translateSegmentWithRetries calls aborted attemptLimit cached seg model =
        .failed eA) ∧
    (∀ (n : Nat) (model : Str) (results : Nat → SegResult) (order : List Nat)
       (i : Nat) (eA : ProviderError) (entry : Nat → SegEntry),
      eA.code = .authentication →
      results i = .failedSeg eA →
      (∀ j, j ≠ i → results j = .done (entry j)) →
      i ∈ order →
      executeSegmentsModel n model results order =
        .err ⟨.authentication, some i, sanitizeErrorMessage eA.message⟩) ∧
    (∀ (e : RunError) (fallbackEnabled : Bool), e.code = .authentication →
      runsSerialFallback (.err e) fallbackEnabled = false) := by
  refine ⟨?_, ?_, ?_⟩
  · intro calls aborted attemptLimit cached seg model k eA hab hpre hfat hcode hk
    have hA : isFatalCode eA.code = true := by simp [isFatalCode, hcode]
    unfold translateSegmentWithRetries
    dsimp only
    rw [retryLoop_fatal calls aborted eA k 0 (max attemptLimit 1) (by omega)
      (by simpa using hab) (by simpa using hpre) (by simpa using hfat) hA]
  · intro n model results order i eA entry hcode hres hdone hmem
    unfold executeSegmentsModel execRun
    have hcap := execFold_captured_failed n results i eA hres order initState hmem
      (fun j _ hne => ⟨entry j, hdone j hne⟩)
    unfold execOutcome
    rw [hcap]
    dsimp only
    rw [hcode]
  · intro e fb hcode
    simp [runsSerialFallback, isFatalCode, hcode]

/-- C2 witness: a run of three segments whose second provider call answers
401; the segment fails with the authentication error, the run error carries
code and index 1, and the fallback decision is negative. -/
theorem C2_authentication_aborts_run_witness :
    translateSegmentWithRetries
      (fun _ => .err ⟨litS "HTTP 401", .authentication, false⟩) (fun _ => false)
      3 none (litS "seg") (litS "gpt") =
      .failed ⟨litS "HTTP 401", .authentication, false⟩ ∧
    executeSegmentsModel 3 (litS "gpt")
      (fun j => if j = 1 then .failedSeg ⟨litS "HTTP 401", .authentication, false⟩
                else .done ⟨litS "ok", 5, litS "gpt", false, none⟩) [0, 1, 2] =
      .err ⟨.authentication, some 1, sanitizeErrorMessage (litS "HTTP 401")⟩ ∧
    runsSerialFallback (.err ⟨.authentication, some 1, litS "HTTP 401"⟩) true = false := by
  refine ⟨?_, ?_, ?_⟩
  · exact C2_authentication_aborts_run.1 _ _ 3 none _ _ 0 _
      (fun j _ => rfl) (fun j hj => by omega) rfl rfl (by omega)
  · exact C2_authentication_aborts_run.2.1 3 (litS "gpt")
      (fun j => if j = 1 then .failedSeg ⟨litS "HTTP 401", .authentication, false⟩
                else .done ⟨litS "ok", 5, litS "gpt", false, none⟩)
      [0, 1, 2] 1 ⟨litS "HTTP 401", .authentication, false⟩
      (fun _ => ⟨litS "ok", 5, litS "gpt", false, none⟩) rfl (by simp)
      (fun j hne => by simp [hne]) (by simp)
  · exact C2_authentication_aborts_run.2.2 _ true rfl

/-! ### The flush invariant of `executeSegments`

`flushedCount done n` is the length of the maximal prefix `0, 1, …` of the
segment indices that is contained in the completed set `done`; the flush
loop has emitted exactly that prefix. -/

lemma fcAux_le (p : Nat → Bool) : ∀ fuel start, fcAux p fuel start ≤ fuel := by
  intro fuel
  induction fuel with
  | zero => intro start; simp [fcAux]
  | succ fuel ih =>
    intro start
    unfold fcAux
    split
    · exact Nat.succ_le_succ (ih (start + 1))
    · omega

lemma fcAux_mem (p : Nat → Bool) :
    ∀ fuel start k, k < fcAux p fuel start → p (start + k) = true := by
  intro fuel
  induction fuel with
  | zero => intro start k h; simp [fcAux] at h
  | succ fuel ih =>
    intro start k h
    unfold fcAux at h
    by_cases hp : p start = true
    · rw [if_pos hp] at h
      cases k with
      | zero => simpa using hp
      | succ k =>
        have := ih (start + 1) k (by omega)
        rw [show start + (k + 1) = start + 1 + k by omega]
        exact this
    · rw [if_neg hp] at h
      omega

lemma fcAux_stop (p : Nat → Bool) :
    ∀ fuel start, fcAux p fuel start < fuel → p (start + fcAux p fuel start) = false := by
  intro fuel
  induction fuel with
  | zero => intro start h; omega
  | succ fuel ih =>
    intro start h
    unfold fcAux at h ⊢
    by_cases hp : p start = true
    · rw [if_pos hp] at h ⊢
      have := ih (start + 1) (by omega)
      rw [show start + (fcAux p fuel (start + 1) + 1) = start + 1 + fcAux p fuel (start + 1)
        by omega]
      exact this
    · rw [if_neg hp] at h ⊢
      simpa using hp

lemma flushedCount_le (done : List Nat) (n : Nat) : flushedCount done n ≤ n :=
  fcAux_le _ n 0

lemma flushedCount_mem (done : List Nat) (n : Nat) :
    ∀ k, k < flushedCount done n → k ∈ done := by
  intro k h
  have := fcAux_mem (fun j => decide (j ∈ done)) n 0 k h
  simpa using this

lemma flushedCount_stop (done : List Nat) (n : Nat)
    (h : flushedCount done n < n) : flushedCount done n ∉ done := by
  have := fcAux_stop (fun j => decide (j ∈ done)) n 0 h
  simpa using this

lemma flushedCount_ge (done : List Nat) (n m : Nat)
    (hmem : ∀ k, k < m → k ∈ done) (hm : m ≤ n) : m ≤ flushedCount done n := by
  by_contra h
  have hlt : flushedCount done n < m := by omega
  have h1 := flushedCount_stop done n (by omega)
  exact h1 (hmem _ hlt)

lemma flushedCount_eq (done : List Nat) (n m : Nat)
    (hmem : ∀ k, k < m → k ∈ done) (hstop : m = n ∨ m ∉ done) (hm : m ≤ n) :
    flushedCount done n = m := by
  have hge := flushedCount_ge done n m hmem hm
  have hle := flushedCount_le done n
  rcases hstop with rfl | hstop
  · omega
  · by_contra h
    have hlt : m < flushedCount done n := by omega
    exact hstop (flushedCount_mem done n m hlt)

lemma flushLoop_adv (n : Nat) (entry : Nat → SegEntry) (done : List Nat) :
    ∀ (fuel f : Nat) (s : ExecState), ExecInv n entry done f s →
    f ≤ flushedCount done n → flushedCount done n - f ≤ fuel →
    ExecInv n entry done (flushedCount done n) (flushLoop fuel s) := by
  intro fuel
  induction fuel with
  | zero =>
    intro f s hInv hle hfuel
    have : f = flushedCount done n := by omega
    subst this
    exact hInv
  | succ fuel ih =>
    intro f s hInv hle hfuel
    by_cases hf : f = flushedCount done n
    · subst hf
      unfold flushLoop
      rw [hInv.flushIdx, hInv.pendingEq]
      rw [if_neg]
      · exact hInv
      · rintro ⟨hmem, -, hlt⟩
        exact flushedCount_stop done n hlt hmem
    · have hflt : f < flushedCount done n := by omega
      have hfn : f < n := by have := flushedCount_le done n; omega
      have hfd : f ∈ done := flushedCount_mem done n f hflt
      unfold flushLoop
      rw [hInv.flushIdx, hInv.pendingEq]
      rw [if_pos ⟨hfd, le_refl f, hfn⟩]
      apply ih (f + 1)
      · constructor
        · simp [hInv.flushIdx]
        · intro j
          show (if j = f then none else s.pending j) = _
          by_cases hj : j = f
          · subst hj
            rw [if_pos rfl, if_neg]
            rintro ⟨-, h2, -⟩
            omega
          · rw [if_neg hj, hInv.pendingEq]
            by_cases hc : j ∈ done ∧ f ≤ j ∧ j < n
            · rw [if_pos hc, if_pos ⟨hc.1, by omega, hc.2.2⟩]
            · rw [if_neg hc, if_neg]
              rintro ⟨h1, h2, h3⟩
              exact hc ⟨h1, by omega, h3⟩
        · simp only [hInv.flushIdx, hInv.eventsEq]
          rw [List.range_succ, List.map_append]
          simp
        · intro j
          simp only [hInv.flushIdx]
          by_cases hj : j = f
          · subst hj
            rw [if_pos rfl, if_pos (by omega)]
          · rw [if_neg hj, hInv.combinedEq]
            by_cases hc : j < f
            · rw [if_pos hc, if_pos (by omega)]
            · rw [if_neg hc, if_neg (by omega)]
        · simp only [hInv.flushIdx, hInv.recoveriesEq]
          rw [List.range_succ, List.filterMap_append]
          congr 1
          simp only [List.filterMap]
          cases (entry f).recovery <;> simp
        · simp [hInv.capturedEq]
      · omega
      · omega

lemma execStep_adv (n : Nat) (entry : Nat → SegEntry) (results : Nat → SegResult)
    (done : List Nat) (s : ExecState) (i : Nat)
    (hInv : ExecInv n entry done (flushedCount done n) s)
    (hres : results i = .done (entry i)) (hi : i < n) (hnew : i ∉ done) :
    ExecInv n entry (i :: done) (flushedCount (i :: done) n) (execStep n results s i) := by
  unfold execStep
  rw [hres]
  have hfi : flushedCount done n ≤ i := by
    by_contra h
    exact hnew (flushedCount_mem done n i (by omega))
  apply flushLoop_adv n entry (i :: done) n (flushedCount done n)
  · constructor
    · exact hInv.flushIdx
    · intro j
      dsimp only
      by_cases hj : j = i
      · subst hj
        rw [if_pos rfl, if_pos ⟨by simp, hfi, hi⟩]
      · rw [if_neg hj, hInv.pendingEq]
        by_cases hc : j ∈ done ∧ flushedCount done n ≤ j ∧ j < n
        · rw [if_pos hc, if_pos ⟨by simp [hc.1], hc.2.1, hc.2.2⟩]
        · rw [if_neg hc, if_neg]
          rintro ⟨h1, h2, h3⟩
          rcases List.mem_cons.mp h1 with h | h
          · exact hj h
          · exact hc ⟨h, h2, h3⟩
    · exact hInv.eventsEq
    · exact hInv.combinedEq
    · exact hInv.recoveriesEq
    · exact hInv.capturedEq
  · apply flushedCount_ge
    · intro k hk
      exact List.mem_cons_of_mem i (flushedCount_mem done n k hk)
    · exact flushedCount_le done n
  · have := flushedCount_le (i :: done) n
    omega

lemma execRun_inv (n : Nat) (entry : Nat → SegEntry) (results : Nat → SegResult) :
    ∀ (order : List Nat) (done0 : List Nat) (s : ExecState),
    ExecInv n entry done0 (flushedCount done0 n) s →
    (∀ i ∈ order, i < n ∧ results i = .done (entry i)) →
    order.Nodup → (∀ i ∈ order, i ∉ done0) →
    ExecInv n entry (order.reverse ++ done0)
      (flushedCount (order.reverse ++ done0) n) (order.foldl (execStep n results) s) := by
  intro order
  induction order with
  | nil => intro done0 s hInv _ _ _; simpa using hInv
  | cons a rest ih =>
    intro done0 s hInv hres hnd hnew
    have ha := hres a (by simp)
    have hstep := execStep_adv n entry results done0 s a hInv ha.2 ha.1
      (hnew a (by simp))
    have hrest := ih (a :: done0) (execStep n results s a) hstep
      (fun i hi => hres i (by simp [hi]))
      (List.Nodup.of_cons hnd)
      (fun i hi => by
        simp only [List.mem_cons, not_or]
        exact ⟨fun hia => (List.nodup_cons.mp hnd).1 (hia ▸ hi), hnew i (by simp [hi])⟩)
    simp only [List.foldl_cons, List.reverse_cons]
    rw [List.append_assoc]
    simpa using hrest

lemma execInv_init (n : Nat) (entry : Nat → SegEntry) :
    ExecInv n entry [] (flushedCount [] n) initState := by
  have h0 : flushedCount [] n = 0 :=
    flushedCount_eq [] n 0 (by omega) (by simp) (by omega)
  rw [h0]
  constructor <;> simp [initState]

/-- C1: whatever order the in-flight segment translations complete in (the
completion order is an arbitrary permutation of the segment indices, which
covers every concurrency limit ≥ 2 as well as the serial order), the
`onSegment` events are emitted with strictly increasing segment indices —
every index exactly once — and the final markdown is the trimmed-right
per-segment results joined in ascending index order by blank lines. -/
theorem C1_ordering_invariant (n : Nat) (model : Str) (entry : Nat → SegEntry)
    (results : Nat → SegResult) (order : List Nat)
    (hres : ∀ i, i < n → results i = .done (entry i))
    (hperm : order.Perm (List.range n)) :
    (execRun n results order).events.map SegmentUpdate.segmentIndex = List.range n ∧
    List.Pairwise (· < ·)
      ((execRun n results order).events.map SegmentUpdate.segmentIndex) ∧
    ∃ res, executeSegmentsModel n model results order = .ok res ∧
      res.markdown =
        joinBlank ((List.range n).map fun j => trimRight (entry j).markdown) := by
  have hnd : order.Nodup := hperm.nodup_iff.mpr (List.nodup_range n)
  have hmem : ∀ i, i ∈ order ↔ i < n := fun i => by
    rw [hperm.mem_iff, List.mem_range]
  have hInv := execRun_inv n entry results order [] initState (execInv_init n entry)
    (fun i hi => ⟨(hmem i).mp hi, hres i ((hmem i).mp hi)⟩) hnd (fun i _ => by simp)
  have hfc : flushedCount (order.reverse ++ []) n = n :=
    flushedCount_eq _ n n
      (fun k hk => by
        simp only [List.append_nil, List.mem_reverse]
        exact (hmem k).mpr hk)
      (Or.inl rfl) le_rfl
  rw [hfc] at hInv
  have hInv2 : ExecInv n entry (order.reverse ++ []) n (execRun n results order) := hInv
  have hev : (execRun n results order).events.map SegmentUpdate.segmentIndex =
      List.range n := by
    rw [hInv2.eventsEq, List.map_map]
    simp [Function.comp_def, mkUpdate]
  refine ⟨hev, ?_, ?_⟩
  · rw [hev]
    exact List.pairwise_lt_range n
  · have hout : executeSegmentsModel n model results order =
        .ok ⟨joinBlank ((List.range n).map
              fun j => ((execRun n results order).combined j).getD []),
            (execRun n results order).providerId.getD model,
            (execRun n results order).aggregateLatency,
            (execRun n results order).recoveries⟩ := by
      unfold executeSegmentsModel execOutcome
      rw [hInv2.capturedEq]
    refine ⟨_, hout, ?_⟩
    show joinBlank _ = _
    congr 1
    apply List.map_congr_left
    intro j hj
    rw [hInv2.combinedEq j, if_pos (List.mem_range.mp hj)]
    rfl

/-- C1 witness: three segments completing in the order 2, 0, 1 still emit
indices 0, 1, 2 and assemble in index order. -/
theorem C1_ordering_invariant_witness :
    (execRun 3 (fun j => .done ⟨litS "s" ++ [Char.ofNat (48 + j)], j, litS "gpt", false, none⟩)
      [2, 0, 1]).events.map SegmentUpdate.segmentIndex = List.range 3 ∧
    ∃ res, executeSegmentsModel 3 (litS "gpt")
        (fun j => .done ⟨litS "s" ++ [Char.ofNat (48 + j)], j, litS "gpt", false, none⟩)
        [2, 0, 1] = .ok res ∧
      res.markdown = joinBlank ((List.range 3).map
        fun j => trimRight (litS "s" ++ [Char.ofNat (48 + j)])) := by
  have h := C1_ordering_invariant 3 (litS "gpt")
    (fun j => ⟨litS "s" ++ [Char.ofNat (48 + j)], j, litS "gpt", false, none⟩)
    (fun j => .done ⟨litS "s" ++ [Char.ofNat (48 + j)], j, litS "gpt", false, none⟩)
    [2, 0, 1] (fun i _ => rfl) (by decide)
  exact ⟨h.1, h.2.2⟩

lemma retryLoop_exhausted (calls : Nat → CallOutcome) (aborted : Nat → Bool)
    (e : ProviderError) (hnf : isFatalCode e.code = false)
    (hab : ∀ j, aborted j = false) (hcalls : ∀ j, calls j = .err e) :
    ∀ (r k0 : Nat), 1 ≤ r →
    ∃ k, retryLoop calls aborted k0 r = .exhausted k (some e) := by
  intro r
  induction r with
  | zero => intro k0 h; omega
  | succ r ih =>
    intro k0 _
    unfold retryLoop
    rw [hab k0, hcalls k0]
    simp only [Bool.false_eq_true, if_false, hnf]
    by_cases hr : e.retryable && decide (r > 0)
    · rw [if_pos hr]
      exact ih (k0 + 1) (by simp at hr; omega)
    · rw [if_neg hr]
      exact ⟨k0 + 1, rfl⟩

/-- C3: when every provider attempt for a segment fails with one non-fatal
error: with no cache entry the segment recovers as a `placeholder` — the
literal original segment text preceded by a blockquote failure annotation,
not written to the segment cache (`shouldCache = false`); with a cache entry
the cached translation is reused as a `cacheFallback` recovery, also not
re-cached.  A run whose entries include a recovery still completes
successfully with a non-empty recovery list, and such a result is not
persisted to the document-level cache. -/
theorem C3_recovery_correctness :
    (∀ (calls : Nat → CallOutcome) (aborted : Nat → Bool) (attemptLimit : Nat)
       (seg model : Str) (e : ProviderError),
      (∀ j, aborted j = false) → (∀ j, calls j = .err e) →
      isFatalCode e.code = false → trim seg ≠ [] →
      ∃ (att : Nat) (hdr : Str),
        translateSegmentWithRetries calls aborted attemptLimit none seg model =
          .recovered ⟨hdr ++ '\n' :: '\n' :: seg, model, 0⟩
            ⟨.placeholder, e.code, att, sanitizeErrorMessage e.message⟩ false ∧
        litS "> Translation failed (" <+: hdr) ∧
    (∀ (calls : Nat → CallOutcome) (aborted : Nat → Bool) (attemptLimit : Nat)
       (c : CachedSegmentResult) (seg model : Str) (e : ProviderError),
      (∀ j, aborted j = false) → (∀ j, calls j = .err e) →
      isFatalCode e.code = false →
      ∃ att,
        translateSegmentWithRetries calls aborted attemptLimit (some c) seg model =
          .recovered
            ⟨normalizeSegmentTranslation seg c.markdown, c.providerId, c.latencyMs⟩
            ⟨.cacheFallback, e.code, att, sanitizeErrorMessage e.message⟩ false) ∧
    (∀ (n : Nat) (model : Str) (entry : Nat → SegEntry) (results : Nat → SegResult)
       (order : List Nat) (i : Nat) (rec : SegmentRecovery),
      (∀ j, j < n → results j = .done (entry j)) →
      order.Perm (List.range n) → i < n → (entry i).recovery = some rec →
      ∃ res, executeSegmentsModel n model results order = .ok res ∧
        res.recoveries ≠ [] ∧ shouldPersistDocumentCache res.recoveries = false) := by
  refine ⟨?_, ?_, ?_⟩
  · intro calls aborted attemptLimit seg model e hab hcalls hnf hseg
    obtain ⟨k, hk⟩ := retryLoop_exhausted calls aborted e hnf hab hcalls
      (max attemptLimit 1) 0 (le_max_right _ _)
    unfold translateSegmentWithRetries
    dsimp only
    rw [hk]
    dsimp only [Option.getD_some]
    rw [if_neg (by simp [hnf])]
    unfold tryRecoverSegment
    dsimp only
    unfold buildPlaceholderSegment
    dsimp only
    rw [if_pos hseg]
    by_cases hmsg : sanitizeErrorMessage e.message ≠ []
    · rw [if_pos hmsg]
      refine ⟨max k 1, _, rfl, ?_⟩
      show litS "> Translation failed (" <+:
        joinLines ([litS "> Translation failed (" ++ codeText e.code ++
          litS "). Showing original text instead."] ++ [litS "> " ++ sanitizeErrorMessage e.message])
      rw [show ([litS "> Translation failed (" ++ codeText e.code ++
          litS "). Showing original text instead."] ++
          [litS "> " ++ sanitizeErrorMessage e.message]) =
        [litS "> Translation failed (" ++ codeText e.code ++
          litS "). Showing original text instead.",
          litS "> " ++ sanitizeErrorMessage e.message] from rfl]
      unfold joinLines
      rw [List.append_assoc, List.append_assoc]
      exact ⟨_, rfl⟩
    · rw [if_neg hmsg]
      refine ⟨max k 1, _, rfl, ?_⟩
      show litS "> Translation failed (" <+:
        joinLines ([litS "> Translation failed (" ++ codeText e.code ++
          litS "). Showing original text instead."] ++ [])
      rw [List.append_nil]
      unfold joinLines
      rw [List.append_assoc]
      exact ⟨_, rfl⟩
  · intro calls aborted attemptLimit c seg model e hab hcalls hnf
    obtain ⟨k, hk⟩ := retryLoop_exhausted calls aborted e hnf hab hcalls
      (max attemptLimit 1) 0 (le_max_right _ _)
    unfold translateSegmentWithRetries
    dsimp only
    rw [hk]
    dsimp only [Option.getD_some]
    rw [if_neg (by simp [hnf])]
    exact ⟨max k 1, rfl⟩
  · intro n model entry results order i rec hres hperm hi hrec
    have hnd : order.Nodup := hperm.nodup_iff.mpr (List.nodup_range n)
    have hmem : ∀ j, j ∈ order ↔ j < n := fun j => by
      rw [hperm.mem_iff, List.mem_range]
    have hInv := execRun_inv n entry results order [] initState (execInv_init n entry)
      (fun j hj => ⟨(hmem j).mp hj, hres j ((hmem j).mp hj)⟩) hnd (fun j _ => by simp)
    have hfc : flushedCount (order.reverse ++ []) n = n :=
      flushedCount_eq _ n n
        (fun k hk => by
          simp only [List.append_nil, List.mem_reverse]
          exact (hmem k).mpr hk)
        (Or.inl rfl) le_rfl
    rw [hfc] at hInv
    have hInv2 : ExecInv n entry (order.reverse ++ []) n (execRun n results order) := hInv
    have hout : executeSegmentsModel n model results order =
        .ok ⟨joinBlank ((List.range n).map
              fun j => ((execRun n results order).combined j).getD []),
            (execRun n results order).providerId.getD model,
            (execRun n results order).aggregateLatency,
            (execRun n results order).recoveries⟩ := by
      unfold executeSegmentsModel execOutcome
      rw [hInv2.capturedEq]
    refine ⟨_, hout, ?_, ?_⟩
    · show (execRun n results order).recoveries ≠ []
      rw [hInv2.recoveriesEq]
      intro hempty
      have : mkRecovery i rec ∈ (List.range n).filterMap
          (fun j => ((entry j).recovery).map (mkRecovery j)) := by
        apply List.mem_filterMap.mpr
        exact ⟨i, List.mem_range.mpr hi, by rw [hrec]; rfl⟩
      rw [hempty] at this
      cases this
    · show shouldPersistDocumentCache (execRun n results order).recoveries = false
      have hne : (execRun n results order).recoveries ≠ [] := by
        rw [hInv2.recoveriesEq]
        intro hempty
        have : mkRecovery i rec ∈ (List.range n).filterMap
            (fun j => ((entry j).recovery).map (mkRecovery j)) := by
          apply List.mem_filterMap.mpr
          exact ⟨i, List.mem_range.mpr hi, by rw [hrec]; rfl⟩
        rw [hempty] at this
        cases this
      unfold shouldPersistDocumentCache
      simp [List.length_eq_zero, hne]

/-- C3 witness: a segment whose two attempts both fail with a retryable
network error, recovered as a placeholder (no cache) and as a cache fallback
(with cache), and a one-segment run carrying a recovery that succeeds but is
not persisted. -/
theorem C3_recovery_correctness_witness :
    (∃ (att : Nat) (hdr : Str),
      translateSegmentWithRetries (fun _ => .err ⟨litS "boom", .network, true⟩)
          (fun _ => false) 2 none (litS "# Title") (litS "gpt") =
        .recovered ⟨hdr ++ '\n' :: '\n' :: litS "# Title", litS "gpt", 0⟩
          ⟨.placeholder, .network, att, sanitizeErrorMessage (litS "boom")⟩ false ∧
      litS "> Translation failed (" <+: hdr) ∧
    (∃ att,
      translateSegmentWithRetries (fun _ => .err ⟨litS "boom", .network, true⟩)
          (fun _ => false) 2 (some ⟨litS "cached", litS "gpt", 7⟩)
          (litS "# Title") (litS "gpt") =
        .recovered
          ⟨normalizeSegmentTranslation (litS "# Title") (litS "cached"), litS "gpt", 7⟩
          ⟨.cacheFallback, .network, att, sanitizeErrorMessage (litS "boom")⟩ false) ∧
    (∃ res, executeSegmentsModel 1 (litS "gpt")
        (fun _ => .done ⟨litS "ph", 0, litS "gpt", false,
          some ⟨.placeholder, .network, 2, litS "boom"⟩⟩) [0] = .ok res ∧
      res.recoveries ≠ [] ∧ shouldPersistDocumentCache res.recoveries = false) := by
  refine ⟨?_, ?_, ?_⟩
  · exact C3_recovery_correctness.1 _ _ 2 (litS "# Title") (litS "gpt")
      ⟨litS "boom", .network, true⟩ (fun _ => rfl) (fun _ => rfl) rfl (by decide)
  · exact C3_recovery_correctness.2.1 _ _ 2 ⟨litS "cached", litS "gpt", 7⟩
      (litS "# Title") (litS "gpt") ⟨litS "boom", .network, true⟩
      (fun _ => rfl) (fun _ => rfl) rfl
  · exact C3_recovery_correctness.2.2 1 (litS "gpt")
      (fun _ => ⟨litS "ph", 0, litS "gpt", false,
        some ⟨.placeholder, .network, 2, litS "boom"⟩⟩)
      (fun _ => .done ⟨litS "ph", 0, litS "gpt", false,
        some ⟨.placeholder, .network, 2, litS "boom"⟩⟩) [0] 0
      ⟨.placeholder, .network, 2, litS "boom"⟩
      (fun _ _ => rfl) (by simp [List.range_succ]) (by omega) rfl

/-! ### Cache invalidation (C9) -/

lemma cleanUri_tail (a : Char) (t : Str) (h : cleanUri (a :: t)) : cleanUri t := by
  constructor
  · intro hin
    exact h.1 (hin.trans (List.infix_cons (List.infix_refl t)))
  · intro hsuf
    exact h.2 (hsuf.trans (List.suffix_cons a t))

lemma uri_prefix_free :
    ∀ (u1 u2 rest : Str), cleanUri u1 → cleanUri u2 →
    (u1 ++ litS "::") <+: (u2 ++ litS "::" ++ rest) → u1 = u2 := by
  intro u1
  induction u1 with
  | nil =>
    intro u2 rest _ hc2 hpre
    cases u2 with
    | nil => rfl
    | cons c u2' =>
      rw [List.nil_append] at hpre
      rcases List.cons_prefix_cons.mp hpre with ⟨hc, hrest⟩
      subst hc
      cases u2' with
      | nil =>
        exact absurd ⟨[], rfl⟩ hc2.2
      | cons d u2'' =>
        rcases List.cons_prefix_cons.mp hrest with ⟨hd, -⟩
        subst hd
        exact absurd ⟨[], u2'', rfl⟩ hc2.1
  | cons a u1' ih =>
    intro u2 rest hc1 hc2 hpre
    cases u2 with
    | nil =>
      rw [List.nil_append] at hpre
      rcases List.cons_prefix_cons.mp
        (show a :: (u1' ++ litS "::") <+: ':' :: ':' :: rest from hpre) with ⟨ha, hrest⟩
      subst ha
      cases u1' with
      | nil =>
        exact absurd ⟨[], rfl⟩ hc1.2
      | cons b u1'' =>
        rcases List.cons_prefix_cons.mp hrest with ⟨hb, -⟩
        subst hb
        exact absurd ⟨[], u1'', rfl⟩ hc1.1
    | cons c u2' =>
      rcases List.cons_prefix_cons.mp
        (show a :: (u1' ++ litS "::") <+: c :: (u2' ++ litS "::" ++ rest) from hpre)
        with ⟨ha, hrest⟩
      subst ha
      rw [ih u2' rest (cleanUri_tail _ _ hc1) (cleanUri_tail _ _ hc2) hrest]

/-- C9: `clearForDocument` removes exactly the document-level entries whose
key is prefixed by `uri ++ "::"` (entries of other well-formed URIs are
untouched); it removes `uri` from the owner set of every touched
fingerprint, deleting owner set and segment entry only when the owner set
becomes empty and keeping the segment entry when another owner remains;
untouched fingerprints and other documents' segment indices are unchanged. -/
theorem C9_clear_for_document (uri : Str) (s : CacheState)
    (hWF : ∀ fp ∈ touchedFingerprints uri s,
      ∃ o, s.segmentOwners fp = some o ∧ uri ∈ o) :
    (∀ k, (uri ++ litS "::").isPrefixOf k = true →
      (clearForDocument uri s).cache k = none) ∧
    (∀ k, (uri ++ litS "::").isPrefixOf k = false →
      (clearForDocument uri s).cache k = s.cache k) ∧
    (∀ (uri2 rest : Str), cleanUri uri → cleanUri uri2 → uri2 ≠ uri →
      (clearForDocument uri s).cache (uri2 ++ litS "::" ++ rest) =
        s.cache (uri2 ++ litS "::" ++ rest)) ∧
    (∀ fp o, fp ∈ touchedFingerprints uri s → s.segmentOwners fp = some o →
      (if o.erase uri = ∅ then
        (clearForDocument uri s).segmentOwners fp = none ∧
        (clearForDocument uri s).segmentCache fp = none
      else
        (clearForDocument uri s).segmentOwners fp = some (o.erase uri) ∧
        (clearForDocument uri s).segmentCache fp = s.segmentCache fp)) ∧
    (∀ fp, fp ∉ touchedFingerprints uri s →
      (clearForDocument uri s).segmentOwners fp = s.segmentOwners fp ∧
      (clearForDocument uri s).segmentCache fp = s.segmentCache fp) ∧
    (∀ fp, fp ∈ touchedFingerprints uri s →
      ∀ o2, (clearForDocument uri s).segmentOwners fp = some o2 → uri ∉ o2) ∧
    ((clearForDocument uri s).documentSegments uri = none ∧
      ∀ d, d ≠ uri →
        (clearForDocument uri s).documentSegments d = s.documentSegments d) := by
  refine ⟨?_, ?_, ?_, ?_, ?_, ?_, ?_, ?_⟩
  · intro k hk
    show (if (uri ++ litS "::").isPrefixOf k = true then none else s.cache k) = none
    rw [if_pos hk]
  · intro k hk
    show (if (uri ++ litS "::").isPrefixOf k = true then none else s.cache k) = s.cache k
    rw [if_neg (by simp [hk])]
  · intro uri2 rest hc1 hc2 hne
    show (if (uri ++ litS "::").isPrefixOf (uri2 ++ litS "::" ++ rest) = true
        then none else s.cache _) = s.cache _
    rw [if_neg]
    intro hpre
    rw [ List.isPrefixOf_iff_prefix] at hpre
    exact hne (uri_prefix_free uri uri2 rest hc1 hc2 hpre).symm
  · intro fp o htouch howners
    have hsome : ∃ fps, s.documentSegments uri = some fps ∧ fp ∈ fps := by
      unfold touchedFingerprints at htouch
      cases h : s.documentSegments uri with
      | none => rw [h] at htouch; simp at htouch
      | some fps => exact ⟨fps, rfl, by rw [h] at htouch; simpa using htouch⟩
    obtain ⟨fps, hds, hfp⟩ := hsome
    by_cases hempty : o.erase uri = ∅
    · rw [if_pos hempty]
      constructor
      · show (match s.documentSegments uri with
          | none => s.segmentOwners fp
          | some fps => _) = none
        rw [hds]
        simp only [if_pos hfp, howners]
        rw [if_pos hempty]
      · show (match s.documentSegments uri with
          | none => s.segmentCache fp
          | some fps => _) = none
        rw [hds]
        simp only [if_pos hfp, howners]
        rw [if_pos hempty]
    · rw [if_neg hempty]
      constructor
      · show (match s.documentSegments uri with
          | none => s.segmentOwners fp
          | some fps => _) = some (o.erase uri)
        rw [hds]
        simp only [if_pos hfp, howners]
        rw [if_neg hempty]
      · show (match s.documentSegments uri with
          | none => s.segmentCache fp
          | some fps => _) = s.segmentCache fp
        rw [hds]
        simp only [if_pos hfp, howners]
        rw [if_neg hempty]
  · intro fp htouch
    cases hds : s.documentSegments uri with
    | none =>
      constructor
      · show (match s.documentSegments uri with
          | none => s.segmentOwners fp
          | some fps => _) = s.segmentOwners fp
        rw [hds]
      · show (match s.documentSegments uri with
          | none => s.segmentCache fp
          | some fps => _) = s.segmentCache fp
        rw [hds]
    | some fps =>
      have hnot : fp ∉ fps := by
        unfold touchedFingerprints at htouch
        rw [hds] at htouch
        simpa using htouch
      constructor
      · show (match s.documentSegments uri with
          | none => s.segmentOwners fp
          | some fps => _) = s.segmentOwners fp
        rw [hds]
        simp [hnot]
      · show (match s.documentSegments uri with
          | none => s.segmentCache fp
          | some fps => _) = s.segmentCache fp
        rw [hds]
        simp [hnot]
  · intro fp htouch o2 ho2
    obtain ⟨o, howners, -⟩ := hWF fp htouch
    have hsome : ∃ fps, s.documentSegments uri = some fps ∧ fp ∈ fps := by
      unfold touchedFingerprints at htouch
      cases h : s.documentSegments uri with
      | none => rw [h] at htouch; simp at htouch
      | some fps => exact ⟨fps, rfl, by rw [h] at htouch; simpa using htouch⟩
    obtain ⟨fps, hds, hfp⟩ := hsome
    have ho2' : (match s.documentSegments uri with
        | none => s.segmentOwners fp
        | some fps =>
          if fp ∈ fps then
            match s.segmentOwners fp with
            | some owners =>
              let owners' := owners.erase uri
              if owners' = ∅ then none else some owners'
            | none => none
          else s.segmentOwners fp) = some o2 := ho2
    rw [hds] at ho2'
    simp only [if_pos hfp, howners] at ho2'
    by_cases hempty : o.erase uri = ∅
    · rw [if_pos hempty] at ho2'
      cases ho2'
    · rw [if_neg hempty] at ho2'
      cases ho2'
      exact Finset.not_mem_erase uri o
  · show (if uri = uri then none else s.documentSegments uri) = none
    rw [if_pos rfl]
  · intro d hd
    show (if d = uri then none else s.documentSegments d) = s.documentSegments d
    rw [if_neg hd]

/-- C9 witness: clearing `a.md` drops its document entry and `fp2` (sole
owner), keeps `b.md`'s entry and `fp1` (still owned by `b.md`) with `a.md`
removed from its owner set. -/
theorem C9_clear_for_document_witness :
    (clearForDocument (litS "file:///a.md") sampleCacheState).cache
      (litS "file:///a.md" ++ litS "::" ++ litS "1::h") = none ∧
    (clearForDocument (litS "file:///a.md") sampleCacheState).cache
      (litS "file:///b.md" ++ litS "::" ++ litS "1::h") =
      sampleCacheState.cache (litS "file:///b.md" ++ litS "::" ++ litS "1::h") ∧
    (clearForDocument (litS "file:///a.md") sampleCacheState).segmentCache
      (litS "fp2") = none ∧
    (clearForDocument (litS "file:///a.md") sampleCacheState).segmentOwners
      (litS "fp2") = none ∧
    (clearForDocument (litS "file:///a.md") sampleCacheState).segmentCache
      (litS "fp1") = sampleCacheState.segmentCache (litS "fp1") ∧
    (clearForDocument (litS "file:///a.md") sampleCacheState).segmentOwners
      (litS "fp1") =
      some (({litS "file:///a.md", litS "file:///b.md"} : Finset Str).erase
        (litS "file:///a.md")) ∧
    (clearForDocument (litS "file:///a.md") sampleCacheState).documentSegments
      (litS "file:///a.md") = none := by
  have hWF : ∀ fp ∈ touchedFingerprints (litS "file:///a.md") sampleCacheState,
      ∃ o, sampleCacheState.segmentOwners fp = some o ∧ litS "file:///a.md" ∈ o := by
    intro fp hfp
    have hfp' : fp = litS "fp1" ∨ fp = litS "fp2" := by
      have : fp ∈ ({litS "fp1", litS "fp2"} : Finset Str) := by
        simpa [touchedFingerprints, sampleCacheState] using hfp
      simpa using this
    rcases hfp' with rfl | rfl
    · exact ⟨{litS "file:///a.md", litS "file:///b.md"}, rfl, by decide⟩
    · exact ⟨{litS "file:///a.md"}, rfl, by decide⟩
  have h := C9_clear_for_document (litS "file:///a.md") sampleCacheState hWF
  have htouch1 : litS "fp1" ∈ touchedFingerprints (litS "file:///a.md") sampleCacheState := by
    decide
  have htouch2 : litS "fp2" ∈ touchedFingerprints (litS "file:///a.md") sampleCacheState := by
    decide
  have h2 := h.2.2.2.1 (litS "fp2") {litS "file:///a.md"} htouch2 rfl
  rw [if_pos (by decide)] at h2
  have h1 := h.2.2.2.1 (litS "fp1") {litS "file:///a.md", litS "file:///b.md"} htouch1 rfl
  rw [if_neg (by decide)] at h1
  exact ⟨h.1 _ (by decide), h.2.1 _ (by decide), h2.2, h2.1, h1.2, h1.1, h.2.2.2.2.2.2.1⟩

/-! ### Line-splitting lemmas (C7, C10) -/

lemma splitLines_nl (rest : Str) : splitLines ('\n' :: rest) = [] :: splitLines rest := rfl

lemma splitLines_crnl (rest : Str) :
    splitLines ('\r' :: '\n' :: rest) = [] :: splitLines rest := rfl

lemma splitLines_other (c : Char) (rest : Str) (l : Str) (ls : List Str)
    (hc : c ≠ '\n') (hcr : ¬(c = '\r' ∧ ∃ r', rest = '\n' :: r'))
    (h : splitLines rest = l :: ls) :
    splitLines (c :: rest) = (c :: l) :: ls := by
  rw [splitLines.eq_def]
  split
  · simp_all
  · rename_i heq
    rw [List.cons.injEq] at heq
    exact absurd heq.1 hc
  · rename_i heq
    rw [List.cons.injEq] at heq
    exact absurd ⟨heq.1, _, heq.2⟩ hcr
  · rename_i c' rest' hne1 hne2 heq
    rw [List.cons.injEq] at heq
    obtain ⟨rfl, rfl⟩ := heq
    rw [h]

lemma splitLines_ne_nil (t : Str) : splitLines t ≠ [] := by
  induction t with
  | nil => simp [splitLines]
  | cons c rest ih =>
    by_cases hc : c = '\n'
    · subst hc; rw [splitLines_nl]; simp
    · by_cases hcr : c = '\r' ∧ ∃ r', rest = '\n' :: r'
      · obtain ⟨rfl, r', rfl⟩ := hcr
        rw [splitLines_crnl]; simp
      · cases h : splitLines rest with
        | nil => exact absurd h ih
        | cons l ls =>
          rw [splitLines_other c rest l ls hc hcr h]
          simp

lemma stripCR_cons (c : Char) (l : Str) (h : l ≠ []) :
    stripCR (c :: l) = c :: stripCR l := by
  cases l with
  | nil => exact absurd rfl h
  | cons d rest =>
    rw [stripCR.eq_def]
    split <;> simp_all

lemma modifyLast_cons (f : Str → Str) (l : Str) (ls : List Str) (h : ls ≠ []) :
    modifyLast f (l :: ls) = l :: modifyLast f ls := by
  cases ls with
  | nil => exact absurd rfl h
  | cons l' ls' => rfl

lemma countP_modifyLast (p : Str → Bool) (f : Str → Str)
    (hp : ∀ l, p (f l) = p l) :
    ∀ ls : List Str, (modifyLast f ls).countP p = ls.countP p := by
  intro ls
  induction ls with
  | nil => rfl
  | cons l ls ih =>
    cases ls with
    | nil => simp [modifyLast, List.countP_cons, hp]
    | cons l' ls' =>
      rw [modifyLast_cons f l (l' :: ls') (by simp)]
      rw [List.countP_cons, List.countP_cons, ih]

lemma stripCR_single (c : Char) (hc : c ≠ '\r') : stripCR [c] = [c] := by
  rw [stripCR.eq_def]
  split <;> simp_all

lemma stripCR_cons2 (c : Char) (l : Str) (h : ¬(c = '\r' ∧ l = [])) :
    stripCR (c :: l) = c :: stripCR l := by
  cases l with
  | nil =>
    have hc : c ≠ '\r' := fun hcc => h ⟨hcc, rfl⟩
    rw [stripCR_single c hc]
    rfl
  | cons d rest => exact stripCR_cons c (d :: rest) (by simp)

lemma splitLines_singleton_nil (x : Str) (h : splitLines x = [[]]) : x = [] := by
  cases x with
  | nil => rfl
  | cons c rest =>
    by_cases hc : c = '\n'
    · subst hc
      rw [splitLines_nl] at h
      injection h with h1 h2
      exact absurd h2 (splitLines_ne_nil rest)
    · by_cases hcr : c = '\r' ∧ ∃ r', rest = '\n' :: r'
      · obtain ⟨rfl, r', rfl⟩ := hcr
        rw [splitLines_crnl] at h
        injection h with h1 h2
        exact absurd h2 (splitLines_ne_nil r')
      · obtain ⟨l, ls, hsplit⟩ : ∃ l ls, splitLines rest = l :: ls := by
          cases hq : splitLines rest with
          | nil => exact absurd hq (splitLines_ne_nil rest)
          | cons l ls => exact ⟨l, ls, rfl⟩
        rw [splitLines_other c rest l ls hc hcr hsplit] at h
        injection h with h1 h2
        cases h1

lemma trimRight_stripCR (l : Str) : trimRight (stripCR l) = trimRight l := by
  induction l with
  | nil => rfl
  | cons c rest ih =>
    cases rest with
    | nil =>
      by_cases hc : c = '\r'
      · subst hc; rfl
      · rw [stripCR_single c hc]
    | cons d rest' =>
      rw [stripCR_cons c (d :: rest') (by simp)]
      show (match trimRight (stripCR (d :: rest')) with
        | [] => if isWS c then [] else [c]
        | r => c :: r) =
        (match trimRight (d :: rest') with
        | [] => if isWS c then [] else [c]
        | r => c :: r)
      rw [ih]

lemma isFence_stripCR (l : Str) : isFenceLine (stripCR l) = isFenceLine l := by
  unfold isFenceLine trim
  rw [trimRight_stripCR]

lemma splitLines_append_nl : ∀ (a t : Str),
    splitLines (a ++ '\n' :: t) = modifyLast stripCR (splitLines a) ++ splitLines t := by
  intro a
  induction a with
  | nil =>
    intro t
    rw [List.nil_append, splitLines_nl]
    rfl
  | cons c a' ih =>
    intro t
    by_cases hc : c = '\n'
    · subst hc
      rw [List.cons_append, splitLines_nl, ih t, splitLines_nl,
        modifyLast_cons _ _ _ (splitLines_ne_nil a'), List.cons_append]
    · by_cases hcr : c = '\r' ∧ ∃ r', a' = '\n' :: r'
      · obtain ⟨rfl, r', rfl⟩ := hcr
        have ihr : splitLines (r' ++ '\n' :: t) =
            modifyLast stripCR (splitLines r') ++ splitLines t := by
          have h := ih t
          rw [List.cons_append, splitLines_nl, splitLines_nl,
            modifyLast_cons _ _ _ (splitLines_ne_nil r'), List.cons_append] at h
          injection h
        rw [List.cons_append, List.cons_append, splitLines_crnl, ihr, splitLines_crnl,
          modifyLast_cons _ _ _ (splitLines_ne_nil r'), List.cons_append]
      · by_cases ha : c = '\r' ∧ a' = []
        · obtain ⟨rfl, rfl⟩ := ha
          rw [List.cons_append, List.nil_append, splitLines_crnl]
          have h1 : splitLines ['\r'] = [['\r']] :=
            splitLines_other '\r' [] [] [] (by decide) (by simp) rfl
          rw [h1]
          rfl
        · obtain ⟨l, ls, hsplit⟩ : ∃ l ls, splitLines a' = l :: ls := by
            cases hq : splitLines a' with
            | nil => exact absurd hq (splitLines_ne_nil a')
            | cons l ls => exact ⟨l, ls, rfl⟩
          have hih := ih t
          have hcr2 : ¬(c = '\r' ∧ ∃ r', (a' ++ '\n' :: t) = '\n' :: r') := by
            rintro ⟨rfl, r', hr⟩
            cases a' with
            | nil => exact ha ⟨rfl, rfl⟩
            | cons d a'' =>
              rw [List.cons_append] at hr
              injection hr with h1 h2
              exact hcr ⟨rfl, a'', by rw [h1]⟩
          obtain ⟨m, ms, hm⟩ : ∃ m ms, splitLines (a' ++ '\n' :: t) = m :: ms := by
            cases hq : splitLines (a' ++ '\n' :: t) with
            | nil => exact absurd hq (splitLines_ne_nil _)
            | cons m ms => exact ⟨m, ms, rfl⟩
          rw [List.cons_append, splitLines_other c _ m ms hc hcr2 hm,
            splitLines_other c a' l ls hc hcr hsplit]
          rw [hm, hsplit] at hih
          cases ls with
          | nil =>
            have hla : ¬(c = '\r' ∧ l = []) := by
              rintro ⟨rfl, rfl⟩
              exact ha ⟨rfl, splitLines_singleton_nil a' hsplit⟩
            show (c :: m) :: ms = modifyLast stripCR [c :: l] ++ splitLines t
            show (c :: m) :: ms = stripCR (c :: l) :: splitLines t
            rw [stripCR_cons2 c l hla]
            have hih2 : m :: ms = stripCR l :: splitLines t := hih
            injection hih2 with h1 h2
            rw [h1, h2]
          | cons l2 ls2 =>
            rw [modifyLast_cons _ _ _ (by simp), List.cons_append]
            rw [modifyLast_cons _ _ _ (by simp), List.cons_append] at hih
            injection hih with h1 h2
            rw [h1, h2]

lemma isFence_of_blank (l : Str) (h : trim l = []) : isFenceLine l = false := by
  unfold isFenceLine
  rw [h]
  rfl

lemma trim_of_fence (l : Str) (h : isFenceLine l = true) : trim l ≠ [] := by
  intro hnil
  rw [isFence_of_blank l hnil] at h
  cases h

lemma countFences_append_nl (a t : Str) :
    countFences (a ++ '\n' :: t) = countFences a + countFences t := by
  unfold countFences
  rw [splitLines_append_nl, List.countP_append, countP_modifyLast _ _ isFence_stripCR]

lemma countFences_nl_cons (t : Str) : countFences ('\n' :: t) = countFences t := by
  unfold countFences
  rw [splitLines_nl, List.countP_cons]
  simp [isFenceLine, trim, trimLeft, trimRight, fenceMarker, List.isPrefixOf]

lemma splitLines_noNL (t : Str) : ∀ l ∈ splitLines t, '\n' ∉ l := by
  induction t with
  | nil => simp [splitLines]
  | cons c rest ih =>
    by_cases hc : c = '\n'
    · subst hc
      rw [splitLines_nl]
      intro l hl
      rcases List.mem_cons.mp hl with rfl | hl
      · simp
      · exact ih l hl
    · by_cases hcr : c = '\r' ∧ ∃ r', rest = '\n' :: r'
      · obtain ⟨rfl, r', rfl⟩ := hcr
        rw [splitLines_crnl]
        intro l hl
        rcases List.mem_cons.mp hl with rfl | hl
        · simp
        · exact ih l (by rw [splitLines_nl]; exact List.mem_cons_of_mem _ hl)
      · obtain ⟨l0, ls0, hsplit⟩ : ∃ l0 ls0, splitLines rest = l0 :: ls0 := by
          cases hq : splitLines rest with
          | nil => exact absurd hq (splitLines_ne_nil rest)
          | cons l0 ls0 => exact ⟨l0, ls0, rfl⟩
        rw [splitLines_other c rest l0 ls0 hc hcr hsplit]
        intro l hl
        rcases List.mem_cons.mp hl with rfl | hl
        · intro hmem
          rcases List.mem_cons.mp hmem with h1 | h1
          · exact hc h1.symm
          · exact ih l0 (hsplit ▸ List.mem_cons_self l0 ls0) h1
        · exact ih l (hsplit ▸ List.mem_cons_of_mem _ hl)

lemma splitLines_of_noNL (l : Str) (h : '\n' ∉ l) : splitLines l = [l] := by
  induction l with
  | nil => rfl
  | cons c rest ih =>
    have hc : c ≠ '\n' := fun hcc => h (hcc ▸ List.mem_cons_self c rest)
    have hcr : ¬(c = '\r' ∧ ∃ r', rest = '\n' :: r') := by
      rintro ⟨-, r', rfl⟩
      exact h (List.mem_cons_of_mem _ (List.mem_cons_self '\n' r'))
    have hrest := ih (fun hmem => h (List.mem_cons_of_mem _ hmem))
    rw [splitLines_other c rest rest [] hc hcr hrest]

lemma countFences_noNL (l : Str) (h : '\n' ∉ l) :
    countFences l = if isFenceLine l then 1 else 0 := by
  unfold countFences
  rw [splitLines_of_noNL l h, List.countP_cons]
  simp [List.countP_nil]

lemma countFences_joinLines (ls : List Str) (h : ∀ l ∈ ls, '\n' ∉ l) :
    countFences (joinLines ls) = ls.countP isFenceLine := by
  induction ls with
  | nil => rfl
  | cons l rest ih =>
    cases rest with
    | nil =>
      show countFences l = _
      rw [countFences_noNL l (h l (by simp))]
      simp only [List.countP_cons, List.countP_nil]
      omega
    | cons l2 rest' =>
      show countFences (l ++ '\n' :: joinLines (l2 :: rest')) = _
      rw [countFences_append_nl, countFences_noNL l (h l (by simp)),
        ih (fun x hx => h x (List.mem_cons_of_mem _ hx))]
      simp only [List.countP_cons]
      omega

lemma countFences_joinBlank (segs : List Str) :
    countFences (joinBlank segs) = (segs.map countFences).sum := by
  induction segs with
  | nil => rfl
  | cons s rest ih =>
    cases rest with
    | nil =>
      show countFences s = _
      simp
    | cons s2 rest' =>
      show countFences (s ++ '\n' :: '\n' :: joinBlank (s2 :: rest')) = _
      rw [countFences_append_nl, countFences_nl_cons, ih]
      simp

lemma segmentLoop_countP : ∀ (lines : List Str) (buffer : List Str) (inFence : Bool),
    ((segmentLoop lines buffer inFence).flatten).countP isFenceLine =
      buffer.countP isFenceLine + lines.countP isFenceLine := by
  intro lines
  induction lines with
  | nil =>
    intro buffer inFence
    show (if buffer = [] then ([] : List (List Str)) else [buffer]).flatten.countP _ = _
    split
    · simp_all [List.countP_nil]
    · simp [List.countP_nil]
  | cons line rest ih =>
    intro buffer inFence
    rw [show segmentLoop (line :: rest) buffer inFence =
      (if isFenceLine line then segmentLoop rest (buffer ++ [line]) (!inFence)
       else if !inFence && trim line = [] then
        (if buffer = [] then [] else [buffer]) ++ segmentLoop rest [] inFence
       else segmentLoop rest (buffer ++ [line]) inFence) from rfl]
    by_cases hf : isFenceLine line = true
    · rw [if_pos hf, ih]
      simp only [List.countP_append, List.countP_cons, List.countP_nil, hf, if_true]
      omega
    · have hf2 : isFenceLine line = false := by simpa using hf
      rw [if_neg (by simp [hf2])]
      by_cases hb : (!inFence && decide (trim line = [])) = true
      · rw [if_pos hb]
        rw [List.flatten_append, List.countP_append, ih]
        have hblank : trim line = [] := by
          simp at hb
          exact hb.2
        simp only [List.countP_cons, List.countP_nil, isFence_of_blank line hblank,
          Bool.false_eq_true, if_false]
        split
        · simp_all [List.countP_nil]
        · simp only [List.flatten_cons, List.flatten_nil, List.append_nil,
            List.countP_nil]
          omega
      · rw [if_neg hb, ih]
        simp only [List.countP_append, List.countP_cons, List.countP_nil, hf2,
          Bool.false_eq_true, if_false]
        omega

lemma segmentLoop_mem_lines :
    ∀ (lines : List Str) (buffer : List Str) (inFence : Bool) (b : List Str) (l : Str),
    b ∈ segmentLoop lines buffer inFence → l ∈ b → l ∈ buffer ∨ l ∈ lines := by
  intro lines
  induction lines with
  | nil =>
    intro buffer inFence b l hb hl
    rw [show segmentLoop [] buffer inFence =
      (if buffer = [] then [] else [buffer]) from rfl] at hb
    split at hb
    · cases hb
    · rcases List.mem_cons.mp hb with rfl | h
      · exact Or.inl hl
      · cases h
  | cons line rest ih =>
    intro buffer inFence b l hb hl
    rw [show segmentLoop (line :: rest) buffer inFence =
      (if isFenceLine line then segmentLoop rest (buffer ++ [line]) (!inFence)
       else if !inFence && trim line = [] then
        (if buffer = [] then [] else [buffer]) ++ segmentLoop rest [] inFence
       else segmentLoop rest (buffer ++ [line]) inFence) from rfl] at hb
    split at hb
    · rcases ih _ _ b l hb hl with h | h
      · rcases List.mem_append.mp h with h1 | h1
        · exact Or.inl h1
        · exact Or.inr (by simp at h1; simp [h1])
      · exact Or.inr (List.mem_cons_of_mem _ h)
    · split at hb
      · rcases List.mem_append.mp hb with h1 | h1
        · split at h1
          · cases h1
          · rcases List.mem_cons.mp h1 with rfl | h2
            · exact Or.inl hl
            · cases h2
        · rcases ih _ _ b l h1 hl with h2 | h2
          · cases h2
          · exact Or.inr (List.mem_cons_of_mem _ h2)
      · rcases ih _ _ b l hb hl with h | h
        · rcases List.mem_append.mp h with h1 | h1
          · exact Or.inl h1
          · exact Or.inr (by simp at h1; simp [h1])
        · exact Or.inr (List.mem_cons_of_mem _ h)

lemma trimLeft_eq_nil_iff (l : Str) :
    trimLeft l = [] ↔ ∀ c ∈ l, isWS c = true := by
  induction l with
  | nil => simp [trimLeft]
  | cons c rest ih =>
    show (if isWS c then trimLeft rest else c :: rest) = [] ↔ _
    by_cases hw : isWS c = true
    · rw [if_pos hw, ih]
      constructor
      · intro h x hx
        rcases List.mem_cons.mp hx with rfl | hx
        · exact hw
        · exact h x hx
      · intro h x hx
        exact h x (List.mem_cons_of_mem _ hx)
    · rw [if_neg hw]
      constructor
      · intro h; cases h
      · intro h
        exact absurd (h c (List.mem_cons_self c rest)) hw

lemma trimRight_eq_nil_iff (l : Str) :
    trimRight l = [] ↔ ∀ c ∈ l, isWS c = true := by
  induction l with
  | nil => simp [trimRight]
  | cons c rest ih =>
    show (match trimRight rest with
      | [] => if isWS c then [] else [c]
      | r => c :: r) = [] ↔ _
    cases hq : trimRight rest with
    | nil =>
      have hrest := ih.mp hq
      constructor
      · intro he
        by_cases hw : isWS c = true
        · intro x hx
          rcases List.mem_cons.mp hx with rfl | hx
          · exact hw
          · exact hrest x hx
        · rw [if_neg hw] at he
          cases he
      · intro hall
        rw [if_pos (hall c (List.mem_cons_self c rest))]
    | cons r rs =>
      constructor
      · intro he; cases he
      · intro hall
        have : trimRight rest = [] := ih.mpr (fun x hx => hall x (List.mem_cons_of_mem _ hx))
        rw [this] at hq
        cases hq

lemma allWS_of_trimRight (l : Str)
    (h : ∀ c ∈ trimRight l, isWS c = true) : ∀ c ∈ l, isWS c = true := by
  induction l with
  | nil => simp
  | cons c rest ih =>
    cases hq : trimRight rest with
    | nil =>
      have hrest := (trimRight_eq_nil_iff rest).mp hq
      by_cases hw : isWS c = true
      · intro x hx
        rcases List.mem_cons.mp hx with rfl | hx
        · exact hw
        · exact hrest x hx
      · exfalso
        have hval : trimRight (c :: rest) = [c] := by
          show (match trimRight rest with
            | [] => if isWS c then [] else [c]
            | r => c :: r) = [c]
          rw [hq]
          exact if_neg hw
        rw [hval] at h
        exact hw (h c (List.mem_cons_self c []))
    | cons r rs =>
      have hval : trimRight (c :: rest) = c :: r :: rs := by
        show (match trimRight rest with
          | [] => if isWS c then [] else [c]
          | r => c :: r) = c :: r :: rs
        rw [hq]
      rw [hval] at h
      intro x hx
      rcases List.mem_cons.mp hx with rfl | hx
      · exact h x (List.mem_cons_self x (r :: rs))
      · exact ih (fun y hy => h y (List.mem_cons_of_mem c (hq ▸ hy))) x hx

lemma trim_eq_nil_iff (l : Str) : trim l = [] ↔ ∀ c ∈ l, isWS c = true := by
  unfold trim
  constructor
  · intro h
    exact allWS_of_trimRight l ((trimLeft_eq_nil_iff (trimRight l)).mp h)
  · intro hall
    rw [(trimRight_eq_nil_iff l).mpr hall]
    rfl

lemma mem_splitLines_subset (t : Str) :
    ∀ l ∈ splitLines t, ∀ c ∈ l, c ∈ t := by
  induction t with
  | nil =>
    intro l hl c hc
    rw [show splitLines [] = [[]] from rfl] at hl
    rcases List.mem_cons.mp hl with rfl | h
    · cases hc
    · cases h
  | cons d rest ih =>
    by_cases hd : d = '\n'
    · subst hd
      rw [splitLines_nl]
      intro l hl c hc
      rcases List.mem_cons.mp hl with rfl | hl
      · cases hc
      · exact List.mem_cons_of_mem _ (ih l hl c hc)
    · by_cases hdr : d = '\r' ∧ ∃ r', rest = '\n' :: r'
      · obtain ⟨rfl, r', rfl⟩ := hdr
        rw [splitLines_crnl]
        intro l hl c hc
        rcases List.mem_cons.mp hl with rfl | hl
        · cases hc
        · have := ih l (by rw [splitLines_nl]; exact List.mem_cons_of_mem _ hl) c hc
          exact List.mem_cons_of_mem _ this
      · obtain ⟨l0, ls0, hsplit⟩ : ∃ l0 ls0, splitLines rest = l0 :: ls0 := by
          cases hq : splitLines rest with
          | nil => exact absurd hq (splitLines_ne_nil rest)
          | cons l0 ls0 => exact ⟨l0, ls0, rfl⟩
        rw [splitLines_other d rest l0 ls0 hd hdr hsplit]
        intro l hl c hc
        rcases List.mem_cons.mp hl with rfl | hl
        · rcases List.mem_cons.mp hc with rfl | hc
          · exact List.mem_cons_self c rest
          · exact List.mem_cons_of_mem _
              (ih l0 (hsplit ▸ List.mem_cons_self l0 ls0) c hc)
        · exact List.mem_cons_of_mem _
            (ih l (hsplit ▸ List.mem_cons_of_mem _ hl) c hc)

lemma segmentLoop_blank : ∀ (lines : List Str),
    (∀ l ∈ lines, trim l = []) → segmentLoop lines [] false = [] := by
  intro lines
  induction lines with
  | nil => intro _; rfl
  | cons line rest ih =>
    intro h
    have hblank := h line (List.mem_cons_self line rest)
    rw [show segmentLoop (line :: rest) [] false =
      (if isFenceLine line then segmentLoop rest ([] ++ [line]) (!false)
       else if !false && trim line = [] then
        (if ([] : List Str) = [] then [] else [[]]) ++ segmentLoop rest [] false
       else segmentLoop rest ([] ++ [line]) false) from rfl]
    rw [if_neg (by simp [isFence_of_blank line hblank]),
      if_pos (by simp [hblank]), if_pos rfl, List.nil_append]
    exact ih (fun l hl => h l (List.mem_cons_of_mem _ hl))

lemma splitIntoSegments_blank (t : Str) (htrim : trim t = []) :
    splitIntoSegments t = [] := by
  unfold splitIntoSegments
  dsimp only
  have hlines : ∀ l ∈ splitLines t, trim l = [] := by
    intro l hl
    apply (trim_eq_nil_iff l).mpr
    intro c hc
    exact (trim_eq_nil_iff t).mp htrim c (mem_splitLines_subset t l hl c hc)
  rw [segmentLoop_blank (splitLines t) hlines]
  simp [htrim]

/-- C7: joining the segments produced by `splitIntoSegments` with blank
lines preserves the total number of code-fence delimiter lines of the input
(so no split ever lands inside an open fence), and a whitespace-only
document yields zero segments. -/
theorem C7_segmenter_fence_preservation (t : Str) :
    countFences (joinBlank (splitIntoSegments t)) = countFences t ∧
    (trim t = [] → splitIntoSegments t = []) := by
  constructor
  · unfold splitIntoSegments
    dsimp only
    split
    · show countFences (joinBlank [t]) = countFences t
      rfl
    · rw [countFences_joinBlank]
      have h1 : ((segmentLoop (splitLines t) [] false).map joinLines).map countFences =
          (segmentLoop (splitLines t) [] false).map (fun b => b.countP isFenceLine) := by
        rw [List.map_map]
        apply List.map_congr_left
        intro b hb
        show countFences (joinLines b) = _
        apply countFences_joinLines
        intro l hl
        rcases segmentLoop_mem_lines (splitLines t) [] false b l hb hl with h | h
        · cases h
        · exact splitLines_noNL t l h
      rw [h1, ← List.countP_flatten, segmentLoop_countP]
      simp only [List.countP_nil]
      unfold countFences
      omega
  · exact splitIntoSegments_blank t

/-- C7 witness: a document with a fenced block containing a blank line, and
a whitespace-only document. -/
theorem C7_segmenter_fence_preservation_witness :
    countFences (joinBlank (splitIntoSegments
      (litS "a\n\n```ts\nx\n\ny\n```\n\nc"))) =
      countFences (litS "a\n\n```ts\nx\n\ny\n```\n\nc") ∧
    splitIntoSegments (litS "  \n\n \n") = [] :=
  ⟨(C7_segmenter_fence_preservation (litS "a\n\n```ts\nx\n\ny\n```\n\nc")).1,
   (C7_segmenter_fence_preservation (litS "  \n\n \n")).2 (by decide)⟩

/-! ### Non-whitespace segment invariant (C10) -/

lemma mem_joinLines : ∀ (ls : List Str) (l : Str) (c : Char),
    l ∈ ls → c ∈ l → c ∈ joinLines ls := by
  intro ls
  induction ls with
  | nil => intro l c hl _; cases hl
  | cons l' rest ih =>
    intro l c hl hc
    cases rest with
    | nil =>
      rcases List.mem_cons.mp hl with rfl | h
      · exact hc
      · cases h
    | cons l2 rest' =>
      show c ∈ l' ++ '\n' :: joinLines (l2 :: rest')
      rcases List.mem_cons.mp hl with rfl | h
      · exact List.mem_append_left _ hc
      · exact List.mem_append_right _ (List.mem_cons_of_mem _ (ih l c h hc))

lemma trim_joinLines_ne_nil (ls : List Str) (l : Str) (hl : l ∈ ls)
    (h : trim l ≠ []) : trim (joinLines ls) ≠ [] := fun hj =>
  h ((trim_eq_nil_iff l).mpr
    (fun c hc => (trim_eq_nil_iff _).mp hj c (mem_joinLines ls l c hl hc)))

lemma segmentLoop_content : ∀ (lines buffer : List Str) (inFence : Bool),
    (buffer ≠ [] → ∃ l ∈ buffer, trim l ≠ []) →
    (inFence = true → ∃ l ∈ buffer, isFenceLine l = true) →
    ∀ b ∈ segmentLoop lines buffer inFence, ∃ l ∈ b, trim l ≠ [] := by
  intro lines
  induction lines with
  | nil =>
    intro buffer inFence h1 _ b hb
    rw [show segmentLoop [] buffer inFence =
      (if buffer = [] then [] else [buffer]) from rfl] at hb
    split at hb
    · cases hb
    · rcases List.mem_cons.mp hb with rfl | h
      · exact h1 (by assumption)
      · cases h
  | cons line rest ih =>
    intro buffer inFence h1 h2 b hb
    rw [show segmentLoop (line :: rest) buffer inFence =
      (if isFenceLine line then segmentLoop rest (buffer ++ [line]) (!inFence)
       else if !inFence && trim line = [] then
        (if buffer = [] then [] else [buffer]) ++ segmentLoop rest [] inFence
       else segmentLoop rest (buffer ++ [line]) inFence) from rfl] at hb
    by_cases hf : isFenceLine line = true
    · rw [if_pos hf] at hb
      refine ih (buffer ++ [line]) (!inFence) ?_ ?_ b hb
      · intro _
        exact ⟨line, List.mem_append_right _ (by simp), trim_of_fence line hf⟩
      · intro hfl
        exact ⟨line, List.mem_append_right _ (by simp), hf⟩
    · rw [if_neg (by simp [hf])] at hb
      by_cases hbl : (!inFence && decide (trim line = [])) = true
      · rw [if_pos hbl] at hb
        have hifF : inFence = false := by
          rcases (Bool.and_eq_true _ _).mp hbl with ⟨hif, -⟩
          simpa using hif
        rcases List.mem_append.mp hb with hb1 | hb1
        · split at hb1
          · cases hb1
          · rcases List.mem_cons.mp hb1 with rfl | h
            · exact h1 (by assumption)
            · cases h
        · refine ih [] inFence (by intro h; cases h rfl) ?_ b hb1
          intro hift
          rw [hifF] at hift
          cases hift
      · rw [if_neg hbl] at hb
        cases hif : inFence with
        | false =>
          have hline : trim line ≠ [] := by
            intro hnil
            apply hbl
            rw [hif, hnil]
            simp
          refine ih (buffer ++ [line]) inFence ?_ ?_ b hb
          · intro _
            exact ⟨line, List.mem_append_right _ (by simp), hline⟩
          · intro hift
            rw [hif] at hift
            cases hift
        | true =>
          obtain ⟨lf, hlf, hlff⟩ := h2 hif
          refine ih (buffer ++ [line]) inFence ?_ ?_ b hb
          · intro _
            exact ⟨lf, List.mem_append_left _ hlf, trim_of_fence lf hlff⟩
          · intro _
            exact ⟨lf, List.mem_append_left _ hlf, hlff⟩

lemma splitIntoSegments_nonWS (t : Str) :
    ∀ s ∈ splitIntoSegments t, trim s ≠ [] := by
  intro s hs
  unfold splitIntoSegments at hs
  dsimp only at hs
  split at hs
  · rename_i hcond
    rcases List.mem_cons.mp hs with rfl | h
    · exact hcond.2
    · cases h
  · rcases List.mem_map.mp hs with ⟨b, hb, rfl⟩
    obtain ⟨l, hl, hlt⟩ := segmentLoop_content (splitLines t) [] false
      (fun h => absurd rfl h) (fun h => by cases h) b hb
    exact trim_joinLines_ne_nil b l hl hlt

lemma pushBuf_nonWS (merged : List Str) (b : Str)
    (h : ∀ m ∈ merged, trim m ≠ []) : ∀ m ∈ pushBuf merged b, trim m ≠ [] := by
  unfold pushBuf
  split
  · exact h
  · intro m hm
    rcases List.mem_append.mp hm with h1 | h1
    · exact h m h1
    · rcases List.mem_cons.mp h1 with rfl | h2
      · assumption
      · cases h2

lemma mergeLoop_nonWS : ∀ (segs : List Str) (buffer : Str) (merged : List Str),
    (∀ m ∈ merged, trim m ≠ []) → ∀ s ∈ mergeLoop segs buffer merged, trim s ≠ [] := by
  intro segs
  induction segs with
  | nil =>
    intro buffer merged h
    exact pushBuf_nonWS merged buffer h
  | cons seg rest ih =>
    intro buffer merged h s hs
    rw [show mergeLoop (seg :: rest) buffer merged =
      (if trim buffer = [] then
        if seg.length ≥ ADAPTIVE_TARGET_LENGTH then
          mergeLoop rest [] (pushBuf merged seg)
        else mergeLoop rest seg merged
       else
        if (buffer ++ '\n' :: '\n' :: seg).length > ADAPTIVE_MAX_LENGTH then
          if seg.length ≥ ADAPTIVE_TARGET_LENGTH ∨ seg.length > ADAPTIVE_MAX_LENGTH then
            mergeLoop rest [] (pushBuf (pushBuf merged buffer) seg)
          else mergeLoop rest seg (pushBuf merged buffer)
        else if (buffer ++ '\n' :: '\n' :: seg).length ≥ ADAPTIVE_TARGET_LENGTH ∨
            trim seg = [] then
          mergeLoop rest [] (pushBuf merged (buffer ++ '\n' :: '\n' :: seg))
        else mergeLoop rest (buffer ++ '\n' :: '\n' :: seg) merged) from rfl] at hs
    split at hs
    · split at hs
      · exact ih [] _ (pushBuf_nonWS merged seg h) s hs
      · exact ih seg merged h s hs
    · split at hs
      · split at hs
        · exact ih [] _ (pushBuf_nonWS _ seg (pushBuf_nonWS merged buffer h)) s hs
        · exact ih seg _ (pushBuf_nonWS merged buffer h) s hs
      · split at hs
        · exact ih [] _ (pushBuf_nonWS merged _ h) s hs
        · exact ih _ merged h s hs

lemma mergeSegments_nonWS (segs : List Str) (h : ∀ s ∈ segs, trim s ≠ []) :
    ∀ s ∈ mergeSegments segs, trim s ≠ [] := by
  unfold mergeSegments
  dsimp only
  split
  · exact h
  · exact mergeLoop_nonWS segs [] [] (by intro m hm; cases hm)

/-- C10: every segment produced by segment planning — the basic blank-line
split and the adaptive merge over its output — contains a non-whitespace
character, so the scheduler never submits a whitespace-only segment, and a
whitespace-only document produces zero segments. -/
theorem C10_no_whitespace_segments (t : Str) (adaptive : Bool) :
    (∀ s ∈ planSegments adaptive t, trim s ≠ []) ∧
    (trim t = [] → planSegments adaptive t = []) := by
  constructor
  · intro s hs
    unfold planSegments at hs
    dsimp only at hs
    cases adaptive with
    | false =>
      rw [if_neg (by simp)] at hs
      exact splitIntoSegments_nonWS t s hs
    | true =>
      rw [if_pos rfl] at hs
      exact mergeSegments_nonWS _ (splitIntoSegments_nonWS t) s hs
  · intro htrim
    unfold planSegments
    dsimp only
    rw [splitIntoSegments_blank t htrim]
    cases adaptive with
    | false => rw [if_neg (by simp)]
    | true => rw [if_pos rfl]; rfl

/-- C10 witness: a concrete plan yields a non-whitespace segment, and a
whitespace-only document plans to zero segments. -/
theorem C10_no_whitespace_segments_witness :
    trim (litS "a\n\nb") ≠ [] ∧ planSegments true (litS " \n\n\t") = [] :=
  ⟨(C10_no_whitespace_segments (litS "a\n\nb") true).1 (litS "a\n\nb") (by decide),
   (C10_no_whitespace_segments (litS " \n\n\t") true).2 (by decide)⟩

end BabelMarkdown
